import Mathlib

/-!
Shallow embedding of the 2048 bitboard engine of this repository.

A board is a 64-bit value (here a `Nat`, with `% 2 ^ 64` applied exactly where
the Rust `u64` semantics demands it) holding 16 four-bit cells ("nibbles"),
each a tile exponent.  The move tables of `moves.rs` are embedded as functions
from the 16-bit row index to the stored 64-bit entry: `Moves::new` fills
`right_moves[row]` and `down_moves[row]` directly, and fills
`left_moves[rev_row]` and `up_moves[rev_row]` through the nibble-reversed row
`rev_row`; since nibble reversal is an involution on 16-bit rows, the entry
stored at index `q` of the left/up tables is the value computed from
`row = rev q`.  That correspondence is what the functional definitions below
spell out, and `Moves.rev_rev` (proved later) justifies it.

The standard library string hasher (`DefaultHasher`) used by `random.rs` is
external to the repository; functions that consume it take the 64-bit digest
(or the hash function itself) as an explicit argument.
-/

namespace Moves

/-- `ROW_MASK` from `moves.rs`: one 16-bit row slice. -/
def ROW_MASK : Nat := 0xFFFF

/-- `COL_MASK` from `moves.rs`: the four column-aligned nibbles. -/
def COL_MASK : Nat := 0x000F000F000F000F

/-- `Moves::column_from`: spread a 16-bit row into the four column lanes. -/
def column_from (board : Nat) : Nat :=
  (board ||| (board <<< 12) ||| (board <<< 24) ||| (board <<< 36)) &&& COL_MASK

/-- Nibble `i` of a row or board: `(r >> (4*i)) & 0xF`. -/
def nib (r i : Nat) : Nat := (r >>> (4 * i)) &&& 0xF

/-- The inner `while j < 4 { if line[j] != 0 { break }; j += 1 }` search of
`Moves::new`, finding the first nonzero cell at index `≥ j` (or 4).  The first
argument is structural fuel; 8 units always suffice for `j ≤ 4`. -/
def findNZ (line : List Nat) : Nat → Nat → Nat
  | 0, j => j
  | fuel + 1, j =>
    if j < 4 then (if line.getD j 0 ≠ 0 then j else findNZ line fuel (j + 1)) else j

/-- The `while i < 3` compaction/merge loop of `Moves::new`, acting on the four
decoded cells (least-significant nibble first).  Each iteration either slides
the next nonzero cell into a zero cell at the write cursor `i` (and retries
`i`), merges an equal pair (capping the result at 0xF) and advances, or just
advances.  The loop runs at most 7 iterations, so 16 units of fuel always
suffice. -/
def moveLineLoop (line : List Nat) (i : Nat) : Nat → List Nat
  | 0 => line
  | fuel + 1 =>
    if i < 3 then
      let j := findNZ line 8 (i + 1)
      if j = 4 then line
      else if line.getD i 0 = 0 then
        moveLineLoop ((line.set i (line.getD j 0)).set j 0) i fuel
      else if line.getD i 0 = line.getD j 0 then
        let line1 := if line.getD i 0 ≠ 0xF then line.set i (line.getD i 0 + 1) else line
        moveLineLoop (line1.set j 0) (i + 1) fuel
      else moveLineLoop line (i + 1) fuel
    else line

/-- The merged `result` row of `Moves::new` for input row `r`: decode the four
cells, run the compaction/merge loop, and reassemble. -/
def res (r : Nat) : Nat :=
  let l := moveLineLoop [nib r 0, nib r 1, nib r 2, nib r 3] 0 16
  l.getD 0 0 ||| (l.getD 1 0 <<< 4) ||| (l.getD 2 0 <<< 8) ||| (l.getD 3 0 <<< 12)

/-- `rev_row` of `Moves::new`: the row with its four nibbles in reverse order. -/
def rev (r : Nat) : Nat :=
  ((r >>> 12) &&& 0x000F) ||| ((r >>> 4) &&& 0x00F0) |||
  ((r <<< 4) &&& 0x0F00) ||| ((r <<< 12) &&& 0xF000)

/-- Entry of the `right` table at index `r`: `right_moves[row] = row ^ result`. -/
def right_tab (r : Nat) : Nat := r ^^^ res r

/-- Entry of the `left` table at index `q`:
`left_moves[rev_row] = rev_row ^ rev_res`, i.e. the entry at `q` is
`q ^^^ rev (res (rev q))`. -/
def left_tab (q : Nat) : Nat := q ^^^ rev (res (rev q))

/-- Entry of the `down` table at index `r`:
`down_moves[row] = column_from(row) ^ column_from(result)`. -/
def down_tab (r : Nat) : Nat := column_from r ^^^ column_from (res r)

/-- Entry of the `up` table at index `q`:
`up_moves[rev_row] = column_from(rev_row) ^ column_from(rev_res)`. -/
def up_tab (q : Nat) : Nat := column_from q ^^^ column_from (rev (res (rev q)))

/-- Entry of the `scores` table at index `r`: the loop
`for &tile in &line { if tile > 1 { s += (tile - 1) * (2 << tile) } }`,
run over the decoded cells of the input row, before the move loop mutates
them. -/
def scores_tab (r : Nat) : Nat :=
  List.foldl (fun s c => if c > 1 then s + (c - 1) * (2 <<< c) else s) 0
    [nib r 0, nib r 1, nib r 2, nib r 3]

end Moves

namespace Game

/-- `Game::transpose`: the three-stage mask-and-shift diagonal swap. -/
def transpose (board : Nat) : Nat :=
  let a1 := board &&& 0xF0F00F0FF0F00F0F
  let a2 := board &&& 0x0000F0F00000F0F0
  let a3 := board &&& 0x0F0F00000F0F0000
  let a := a1 ||| (a2 <<< 12) ||| (a3 >>> 12)
  let b1 := a &&& 0xFF00FF0000FF00FF
  let b2 := a &&& 0x00FF00FF00000000
  let b3 := a &&& 0x00000000FF00FF00
  b1 ||| (b2 >>> 24) ||| (b3 <<< 24)

/-- Row slice `k` of a board: `(board >> (16*k)) & ROW_MASK`. -/
def rowAt (board k : Nat) : Nat := (board >>> (16 * k)) &&& Moves.ROW_MASK

/-- `Game::move_right`: XOR the right-table delta of each row back into place. -/
def move_right (board : Nat) : Nat :=
  board ^^^ Moves.right_tab (rowAt board 0)
        ^^^ (Moves.right_tab (rowAt board 1) <<< 16)
        ^^^ (Moves.right_tab (rowAt board 2) <<< 32)
        ^^^ (Moves.right_tab (rowAt board 3) <<< 48)

/-- `Game::move_left`. -/
def move_left (board : Nat) : Nat :=
  board ^^^ Moves.left_tab (rowAt board 0)
        ^^^ (Moves.left_tab (rowAt board 1) <<< 16)
        ^^^ (Moves.left_tab (rowAt board 2) <<< 32)
        ^^^ (Moves.left_tab (rowAt board 3) <<< 48)

/-- `Game::move_up`: look rows of the transposed board up in the
column-spread `up` table and XOR the deltas in at nibble offsets 0/4/8/12. -/
def move_up (board : Nat) : Nat :=
  let t := transpose board
  board ^^^ Moves.up_tab (rowAt t 0)
        ^^^ (Moves.up_tab (rowAt t 1) <<< 4)
        ^^^ (Moves.up_tab (rowAt t 2) <<< 8)
        ^^^ (Moves.up_tab (rowAt t 3) <<< 12)

/-- `Game::move_down`. -/
def move_down (board : Nat) : Nat :=
  let t := transpose board
  board ^^^ Moves.down_tab (rowAt t 0)
        ^^^ (Moves.down_tab (rowAt t 1) <<< 4)
        ^^^ (Moves.down_tab (rowAt t 2) <<< 8)
        ^^^ (Moves.down_tab (rowAt t 3) <<< 12)

/-- `Game::count_empty`: the number of zero nibbles of the board. -/
def count_empty (board : Nat) : Nat :=
  (List.range 16).countP fun i => (board >>> (4 * i)) &&& 0xF == 0

/-- `Game::is_ended`: true when some nibble is 11 (tile 2048), or when
no direction changes the board. -/
def is_ended (board : Nat) : Bool :=
  ((List.range 16).any fun i => (board >>> (4 * i)) &&& 0xF == 11)
  || (board == move_left board && board == move_right board
      && board == move_up board && board == move_down board)

/-- `Game::table_helper` specialised to the scores table, i.e. `Game::score`. -/
def score (board : Nat) : Nat :=
  Moves.scores_tab (rowAt board 0) + Moves.scores_tab (rowAt board 1)
    + Moves.scores_tab (rowAt board 2) + Moves.scores_tab (rowAt board 3)

end Game

/-- `gen_range` from `random.rs`, as a function of the 64-bit digest that
`DefaultHasher` produces from the input string: `digest % (max - min) + min`.
When `max - min = 0` the Rust code evaluates `seed % 0`, which panics
(remainder by zero); `none` models that panic.  (`max < min` would already
panic in the `u16` subtraction; the saturating `Nat` subtraction folds that
case into the same `none`.) -/
def gen_range (digest minv maxv : Nat) : Option Nat :=
  if maxv - minv = 0 then none else some (digest % (maxv - minv) + minv)

namespace Game

/-- `Game::tile`: exponent 2 when `gen_range(seed, 0, 10) == 10`, else 1,
as a function of the digest of the seed string. -/
def tile (digest : Nat) : Nat :=
  if gen_range digest 0 10 = some 10 then 2 else 1

/-- The `loop`/`while` scan of `Game::spawn_tile`, restructured as a single
fueled recursion: while the current nibble of `tmp` is nonzero, shift; at an
empty nibble, stop when `idx` hits zero, else consume it and continue.  The
`t <<= 4` of the Rust `u64` drops overflowing bits, hence the `% 2 ^ 64`.
64 units of fuel always suffice for `idx < 16`; `none` is unreachable then. -/
def spawnLoop : Nat → Nat → Nat → Nat → Option Nat
  | 0, _, _, _ => none
  | fuel + 1, tmp, t, idx =>
    if tmp &&& 0xF ≠ 0 then spawnLoop fuel (tmp >>> 4) ((t <<< 4) % 2 ^ 64) idx
    else if idx = 0 then some t
    else spawnLoop fuel (tmp >>> 4) ((t <<< 4) % 2 ^ 64) (idx - 1)

/-- `Game::spawn_tile` as a function of the digest of the seed string:
draw the target index among the empty cells, draw the tile, scan for the
chosen empty nibble.  On a board with no empty nibble, `gen_range` hits
`% 0` and panics (`none`). -/
def spawn_tile (digest board : Nat) : Option Nat :=
  match gen_range digest 0 (count_empty board) with
  | none => none
  | some idx => spawnLoop 64 board (tile digest) idx

end Game

/-- `Game` of `game.rs`: a 64-bit board paired with a 16-bit seed. -/
structure Game where
  board : Nat
  seed : Nat

namespace Game

/-- `Game::new`: start from the zero board and spawn twice, the first draw
keyed by the decimal string of `seed`, the second by that of `seed + 1`
(a `u16` addition, which wraps at 65535 in release builds and panics in debug
builds; the claim under scrutiny only concerns `seed < 65535`, where both
agree with `seed + 1`).  `hash` is the external `DefaultHasher` digest
function. -/
def new (hash : String → Nat) (seed : Nat) : Option Game :=
  match spawn_tile (hash (toString seed)) 0 with
  | none => none
  | some t1 =>
    let b1 := 0 ||| t1
    match spawn_tile (hash (toString ((seed + 1) % 65536))) b1 with
    | none => none
    | some t2 => some ⟨b1 ||| t2, seed⟩

end Game

/-- `Direction` from `direction.rs`. -/
inductive Direction where
  | Up
  | Down
  | Left
  | Right
deriving DecidableEq

/-- The `match direction` dispatch inside `Game::execute`. -/
def moveDir (d : Direction) (board : Nat) : Nat :=
  match d with
  | Direction.Left => Game.move_left board
  | Direction.Right => Game.move_right board
  | Direction.Down => Game.move_down board
  | Direction.Up => Game.move_up board

namespace Game

/-- `Game::execute`: apply the direction; if the board changed, OR in a
spawned tile keyed by the seed digest of the game. -/
def execute (digest : Nat) (board : Nat) (d : Direction) : Option Nat :=
  let cur := moveDir d board
  if cur ≠ board then (spawn_tile digest cur).map fun t => cur ||| t
  else some cur

end Game

/-- Per-game persistent record from `state.rs` (`GameState` view). -/
structure GameState where
  game_id : Nat
  board : Nat
  score : Nat
  is_ended : Bool

/-- Payload of `Message::Game` sent by the contract after a move. -/
structure GameMessage where
  game_id : Nat
  board : Nat
  score : Nat
  is_ended : Bool

/-- The `Operation::MakeMove` arm of `Game2048Contract::execute_operation`:
if the stored game is ended, nothing happens (no state write, no message);
otherwise run `Game::execute`, store the new board and score, set the ended
flag if the post-move board is terminal, and send one message.  `digest` is
the `get_seed(0)` value derived from the block height (external runtime
input). -/
def makeMove (digest : Nat) (st : GameState) (d : Direction) :
    Option (GameState × Option GameMessage) :=
  if st.is_ended then some (st, none)
  else
    match Game.execute digest st.board d with
    | none => none
    | some nb =>
      let ended := Game.is_ended nb
      let sc := Game.score nb
      let st1 : GameState :=
        { st with board := nb, score := sc,
                  is_ended := if ended then true else st.is_ended }
      some (st1, some ⟨st.game_id, nb, sc, ended⟩)

/-- The row-score formula as the specification states it: the sum of
`(c - 1) * (2 << c)` (i.e. `(c - 1) * 2 ^ (c + 1)`) over the decoded cells
`c` of the input row with `c > 1`. -/
def specRowScore (r : Nat) : Nat :=
  ((([Moves.nib r 0, Moves.nib r 1, Moves.nib r 2, Moves.nib r 3].filter
      fun c => 1 < c).map fun c => (c - 1) * 2 ^ (c + 1)).sum)

/-- No two adjacent cells of the row are equal and nonzero. -/
def noAdjEq (r : Nat) : Bool :=
  (Moves.nib r 0 == 0 || Moves.nib r 0 != Moves.nib r 1)
  && (Moves.nib r 1 == 0 || Moves.nib r 1 != Moves.nib r 2)
  && (Moves.nib r 2 == 0 || Moves.nib r 2 != Moves.nib r 3)

/-- The row is compacted toward its high nibbles (the display-left / display-top
side): below an empty cell every cell is empty. -/
def compactedHigh (r : Nat) : Bool :=
  (Moves.nib r 1 != 0 || Moves.nib r 0 == 0)
  && (Moves.nib r 2 != 0 || Moves.nib r 1 == 0)
  && (Moves.nib r 3 != 0 || Moves.nib r 2 == 0)

/-- The board whose row lines (for left/right moves) or column lines (for
up/down moves) the 16-bit row-table machinery acts on. -/
def oriented (d : Direction) (board : Nat) : Nat :=
  match d with
  | Direction.Left => board
  | Direction.Right => board
  | Direction.Up => Game.transpose board
  | Direction.Down => Game.transpose board

/-- First stage of `Game::transpose` applied to an arbitrary word. -/
def tStageA (z : Nat) : Nat :=
  (z &&& 0xF0F00F0FF0F00F0F) ||| ((z &&& 0x0000F0F00000F0F0) <<< 12)
    ||| ((z &&& 0x0F0F00000F0F0000) >>> 12)

/-- Second stage of `Game::transpose` applied to an arbitrary word. -/
def tStageB (z : Nat) : Nat :=
  (z &&& 0xFF00FF0000FF00FF) ||| ((z &&& 0x00FF00FF00000000) >>> 24)
    ||| ((z &&& 0x00000000FF00FF00) <<< 24)

/-- Decidable check used for the second spawn of `Game::new`: starting from a
board with a single tile at nibble `i`, a spawn scan with target index `j`
lands on an empty nibble and leaves exactly 14 empty nibbles. -/
def spawnCheck (i j : Nat) : Bool :=
  match Game.spawnLoop 64 (2 ^ (4 * i)) 1 j with
  | none => false
  | some t2 => Game.count_empty (2 ^ (4 * i) ||| t2) == 14

-- Sanity checks against the literal scenarios of the specification (§8) and
-- the doc examples of `game.rs`.
example : Game.move_right 0x2211 = 0x0032 := by decide
example : Game.move_left 0x2211 = 0x3200 := by decide
example : Game.move_up 0x11 = 0x0011000000000000 := by decide
example : Game.move_down 0x0011000000000011 = 0x22 := by decide
example : Game.transpose 0xFEDCBA9876543210 = 0xFB73EA62D951C840 := by decide
example : Game.count_empty 0x2211 = 12 := by decide
example : Game.is_ended 0x0B00 = true := by decide
example : Game.move_left 0x221100 = 0x30002000 := by decide

/-! ### Generic bitwise lemmas -/

/-- Disjointly-supported values combine the same way under `|||` and `^^^`. -/
theorem lor_eq_xor_of_and_eq_zero {a b : Nat} (h : a &&& b = 0) :
    a ||| b = a ^^^ b := by
  apply Nat.eq_of_testBit_eq
  intro i
  have hi : (a &&& b).testBit i = false := by rw [h]; simp
  simp only [Nat.testBit_and] at hi
  simp only [Nat.testBit_or, Nat.testBit_xor]
  cases ha : a.testBit i <;> cases hb : b.testBit i <;> simp_all

/-- Left shift distributes over XOR. -/
theorem shiftLeft_xor_distrib (x y n : Nat) :
    (x ^^^ y) <<< n = (x <<< n) ^^^ (y <<< n) := by
  apply Nat.eq_of_testBit_eq
  intro i
  simp only [Nat.testBit_shiftLeft, Nat.testBit_xor]
  by_cases h : n ≤ i <;> simp [h]

/-- Right shift distributes over XOR. -/
theorem shiftRight_xor_distrib (x y n : Nat) :
    (x ^^^ y) >>> n = (x >>> n) ^^^ (y >>> n) := by
  apply Nat.eq_of_testBit_eq
  intro i
  simp

/-- Left shift distributes over AND. -/
theorem shiftLeft_and_distrib (x m n : Nat) :
    (x &&& m) <<< n = (x <<< n) &&& (m <<< n) := by
  apply Nat.eq_of_testBit_eq
  intro i
  simp only [Nat.testBit_shiftLeft, Nat.testBit_and]
  by_cases h : n ≤ i <;> simp [h]

/-- Right shift distributes over AND. -/
theorem shiftRight_and_distrib (x m n : Nat) :
    (x &&& m) >>> n = (x >>> n) &&& (m >>> n) := by
  apply Nat.eq_of_testBit_eq
  intro i
  simp

/-- Two maskings with disjoint masks are disjoint. -/
theorem and_and_eq_zero_of_masks {m m' : Nat} (x y : Nat) (h : m &&& m' = 0) :
    (x &&& m) &&& (y &&& m') = 0 := by
  apply Nat.eq_of_testBit_eq
  intro i
  have hi : (m &&& m').testBit i = false := by rw [h]; simp
  simp only [Nat.testBit_and] at hi ⊢
  cases hm : m.testBit i <;> cases hm' : m'.testBit i <;> simp_all

/-- Masking below the support of a bounded value may be reduced modulo `2 ^ k`. -/
theorem and_mask_mod {x : Nat} (m : Nat) {k : Nat} (h : x < 2 ^ k) :
    x &&& m = x &&& (m % 2 ^ k) := by
  conv_lhs => rw [← Nat.and_pow_two_sub_one_of_lt_two_pow h]
  rw [Nat.and_assoc, Nat.and_comm (2 ^ k - 1) m, Nat.and_pow_two_sub_one_eq_mod]

/-- A value with zero low bits ANDed with a low mask is zero. -/
theorem and_eq_zero_of_mod_eq_zero {x m k : Nat} (hx : x % 2 ^ k = 0)
    (hm : m < 2 ^ k) : x &&& m = 0 := by
  rw [Nat.and_comm, and_mask_mod x hm, hx, Nat.and_zero]

/-- Agreement on single bits plus XOR-linearity below `2 ^ n` forces two
functions to agree below `2 ^ n`. -/
theorem xorfun_eq {n : Nat} {f g : Nat → Nat}
    (hf : ∀ x y, x < 2 ^ n → y < 2 ^ n → f (x ^^^ y) = f x ^^^ f y)
    (hg : ∀ x y, x < 2 ^ n → y < 2 ^ n → g (x ^^^ y) = g x ^^^ g y)
    (hbase : ∀ j, j < n → f (2 ^ j) = g (2 ^ j)) :
    ∀ b, b < 2 ^ n → f b = g b := by
  intro b
  induction b using Nat.strong_induction_on with
  | _ b ih =>
    intro hb
    by_cases hb0 : b = 0
    · subst hb0
      have h2 : (0 : Nat) < 2 ^ n := Nat.two_pow_pos n
      have hf0 := hf 0 0 h2 h2
      have hg0 := hg 0 0 h2 h2
      simp only [Nat.zero_xor, Nat.xor_self] at hf0 hg0
      rw [hf0, hg0]
    · have hjn : Nat.log2 b < n := (Nat.log2_lt hb0).mpr hb
      have hlow : 2 ^ Nat.log2 b ≤ b := Nat.log2_self_le hb0
      have hhigh : b < 2 ^ (Nat.log2 b + 1) := Nat.lt_log2_self
      have hp : 2 ^ (Nat.log2 b + 1) = 2 ^ Nat.log2 b * 2 := by
        rw [Nat.pow_succ]
      have h1 : b / 2 ^ Nat.log2 b = 1 := Nat.div_eq_of_lt_le (by omega) (by omega)
      have htb : b.testBit (Nat.log2 b) = true := by
        simp [Nat.testBit_to_div_mod, h1]
      have hcj : b ^^^ 2 ^ Nat.log2 b < 2 ^ Nat.log2 b := by
        apply Nat.lt_pow_two_of_testBit
        intro i hi
        rcases Nat.eq_or_lt_of_le hi with heq | hlt
        · simp [← heq, Nat.testBit_xor, htb, Nat.testBit_two_pow_self]
        · have hb1 : b.testBit i = false :=
            Nat.testBit_lt_two_pow
              (lt_of_lt_of_le hhigh (Nat.pow_le_pow_right (by norm_num) hlt))
          have hb2 : (2 ^ Nat.log2 b).testBit i = false :=
            Nat.testBit_two_pow_of_ne (by omega)
          simp [Nat.testBit_xor, hb1, hb2]
      have hcb : b ^^^ 2 ^ Nat.log2 b < b := lt_of_lt_of_le hcj hlow
      have h2jn : 2 ^ Nat.log2 b < 2 ^ n :=
        Nat.pow_lt_pow_right (by norm_num) hjn
      have hcn : b ^^^ 2 ^ Nat.log2 b < 2 ^ n := lt_trans hcj h2jn
      have hsplit : 2 ^ Nat.log2 b ^^^ (b ^^^ 2 ^ Nat.log2 b) = b := by
        rw [Nat.xor_comm b (2 ^ Nat.log2 b), ← Nat.xor_assoc, Nat.xor_self,
          Nat.zero_xor]
      calc f b = f (2 ^ Nat.log2 b ^^^ (b ^^^ 2 ^ Nat.log2 b)) := by rw [hsplit]
        _ = f (2 ^ Nat.log2 b) ^^^ f (b ^^^ 2 ^ Nat.log2 b) := hf _ _ h2jn hcn
        _ = g (2 ^ Nat.log2 b) ^^^ g (b ^^^ 2 ^ Nat.log2 b) := by
            rw [hbase _ hjn, ih _ hcb hcn]
        _ = g (2 ^ Nat.log2 b ^^^ (b ^^^ 2 ^ Nat.log2 b)) := (hg _ _ h2jn hcn).symm
        _ = g b := by rw [hsplit]

/-- XOR terms regroup pairwise. -/
theorem xor_xor_comm (a b c d : Nat) :
    (a ^^^ b) ^^^ (c ^^^ d) = (a ^^^ c) ^^^ (b ^^^ d) := by
  rw [Nat.xor_assoc, Nat.xor_assoc]
  congr 1
  rw [← Nat.xor_assoc, ← Nat.xor_assoc, Nat.xor_comm b c]

/-- A three-way OR of pairwise-disjoint values is their XOR. -/
theorem or3_eq_xor3 {a b c : Nat} (hab : a &&& b = 0) (hac : a &&& c = 0)
    (hbc : b &&& c = 0) : a ||| b ||| c = a ^^^ b ^^^ c := by
  have h : (a ^^^ b) &&& c = 0 := by
    rw [Nat.and_xor_distrib_right, hac, hbc]
    simp
  rw [lor_eq_xor_of_and_eq_zero hab, lor_eq_xor_of_and_eq_zero h]

/-! ### The transpose bit permutation -/

theorem transpose_stages (z : Nat) : Game.transpose z = tStageB (tStageA z) := rfl

theorem tStageA_xor (x y : Nat) : tStageA (x ^^^ y) = tStageA x ^^^ tStageA y := by
  have h12 : ∀ z w : Nat,
      (z &&& 0xF0F00F0FF0F00F0F) &&& ((w &&& 0x0000F0F00000F0F0) <<< 12) = 0 := by
    intro z w
    rw [shiftLeft_and_distrib]
    exact and_and_eq_zero_of_masks _ _ (by decide)
  have h13 : ∀ z w : Nat,
      (z &&& 0xF0F00F0FF0F00F0F) &&& ((w &&& 0x0F0F00000F0F0000) >>> 12) = 0 := by
    intro z w
    rw [shiftRight_and_distrib]
    exact and_and_eq_zero_of_masks _ _ (by decide)
  have h23 : ∀ z w : Nat,
      ((z &&& 0x0000F0F00000F0F0) <<< 12) &&&
        ((w &&& 0x0F0F00000F0F0000) >>> 12) = 0 := by
    intro z w
    rw [shiftLeft_and_distrib, shiftRight_and_distrib]
    exact and_and_eq_zero_of_masks _ _ (by decide)
  unfold tStageA
  rw [or3_eq_xor3 (h12 _ _) (h13 _ _) (h23 _ _),
    or3_eq_xor3 (h12 _ _) (h13 _ _) (h23 _ _),
    or3_eq_xor3 (h12 _ _) (h13 _ _) (h23 _ _)]
  rw [Nat.and_xor_distrib_right, Nat.and_xor_distrib_right,
    Nat.and_xor_distrib_right, shiftLeft_xor_distrib, shiftRight_xor_distrib]
  rw [xor_xor_comm (x &&& 0xF0F00F0FF0F00F0F) (y &&& 0xF0F00F0FF0F00F0F)
    ((x &&& 0x0000F0F00000F0F0) <<< 12) ((y &&& 0x0000F0F00000F0F0) <<< 12)]
  rw [xor_xor_comm
    (x &&& 0xF0F00F0FF0F00F0F ^^^ (x &&& 0x0000F0F00000F0F0) <<< 12)
    (y &&& 0xF0F00F0FF0F00F0F ^^^ (y &&& 0x0000F0F00000F0F0) <<< 12)
    ((x &&& 0x0F0F00000F0F0000) >>> 12) ((y &&& 0x0F0F00000F0F0000) >>> 12)]

theorem tStageB_xor (x y : Nat) : tStageB (x ^^^ y) = tStageB x ^^^ tStageB y := by
  have h12 : ∀ z w : Nat,
      (z &&& 0xFF00FF0000FF00FF) &&& ((w &&& 0x00FF00FF00000000) >>> 24) = 0 := by
    intro z w
    rw [shiftRight_and_distrib]
    exact and_and_eq_zero_of_masks _ _ (by decide)
  have h13 : ∀ z w : Nat,
      (z &&& 0xFF00FF0000FF00FF) &&& ((w &&& 0x00000000FF00FF00) <<< 24) = 0 := by
    intro z w
    rw [shiftLeft_and_distrib]
    exact and_and_eq_zero_of_masks _ _ (by decide)
  have h23 : ∀ z w : Nat,
      ((z &&& 0x00FF00FF00000000) >>> 24) &&&
        ((w &&& 0x00000000FF00FF00) <<< 24) = 0 := by
    intro z w
    rw [shiftLeft_and_distrib, shiftRight_and_distrib]
    exact and_and_eq_zero_of_masks _ _ (by decide)
  unfold tStageB
  rw [or3_eq_xor3 (h12 _ _) (h13 _ _) (h23 _ _),
    or3_eq_xor3 (h12 _ _) (h13 _ _) (h23 _ _),
    or3_eq_xor3 (h12 _ _) (h13 _ _) (h23 _ _)]
  rw [Nat.and_xor_distrib_right, Nat.and_xor_distrib_right,
    Nat.and_xor_distrib_right, shiftLeft_xor_distrib, shiftRight_xor_distrib]
  rw [xor_xor_comm (x &&& 0xFF00FF0000FF00FF) (y &&& 0xFF00FF0000FF00FF)
    ((x &&& 0x00FF00FF00000000) >>> 24) ((y &&& 0x00FF00FF00000000) >>> 24)]
  rw [xor_xor_comm
    (x &&& 0xFF00FF0000FF00FF ^^^ (x &&& 0x00FF00FF00000000) >>> 24)
    (y &&& 0xFF00FF0000FF00FF ^^^ (y &&& 0x00FF00FF00000000) >>> 24)
    ((x &&& 0x00000000FF00FF00) <<< 24) ((y &&& 0x00000000FF00FF00) <<< 24)]

/-- `Game::transpose` is XOR-linear. -/
theorem transpose_xor (x y : Nat) :
    Game.transpose (x ^^^ y) = Game.transpose x ^^^ Game.transpose y := by
  rw [transpose_stages, transpose_stages, transpose_stages, tStageA_xor, tStageB_xor]

/-- `Game::transpose` always produces a 64-bit value. -/
theorem transpose_lt_two_pow (z : Nat) : Game.transpose z < 2 ^ 64 := by
  rw [transpose_stages]
  unfold tStageB
  have h1 : tStageA z &&& 0xFF00FF0000FF00FF < 2 ^ 64 :=
    lt_of_le_of_lt Nat.and_le_right (by norm_num)
  have h2 : (tStageA z &&& 0x00FF00FF00000000) >>> 24 < 2 ^ 64 := by
    rw [Nat.shiftRight_eq_div_pow]
    exact lt_of_le_of_lt (le_trans (Nat.div_le_self _ _) Nat.and_le_right)
      (by norm_num)
  have h3 : (tStageA z &&& 0x00000000FF00FF00) <<< 24 < 2 ^ 64 := by
    calc (tStageA z &&& 0x00000000FF00FF00) <<< 24
        = (tStageA z &&& 0x00000000FF00FF00) * 2 ^ 24 := by rw [Nat.shiftLeft_eq]
      _ ≤ 0x00000000FF00FF00 * 2 ^ 24 :=
        Nat.mul_le_mul_right _ Nat.and_le_right
      _ < 2 ^ 64 := by norm_num
  exact Nat.or_lt_two_pow (Nat.or_lt_two_pow h1 h2) h3

/-- The transpose is its own inverse on 64-bit boards. -/
theorem transpose_transpose : ∀ b, b < 2 ^ 64 →
    Game.transpose (Game.transpose b) = b := by
  have h := xorfun_eq (n := 64)
    (f := fun b => Game.transpose (Game.transpose b)) (g := fun b => b)
    (fun x y _ _ => by simp only [transpose_xor])
    (fun x y _ _ => rfl)
    (by decide)
  exact h

/-- A four-way OR of pairwise-disjoint values is their XOR. -/
theorem or4_eq_xor4 {a b c d : Nat} (hab : a &&& b = 0) (hac : a &&& c = 0)
    (had : a &&& d = 0) (hbc : b &&& c = 0) (hbd : b &&& d = 0)
    (hcd : c &&& d = 0) : a ||| b ||| c ||| d = a ^^^ b ^^^ c ^^^ d := by
  have h : (a ^^^ b ^^^ c) &&& d = 0 := by
    rw [Nat.and_xor_distrib_right, Nat.and_xor_distrib_right, had, hbd, hcd]
    simp
  rw [or3_eq_xor3 hab hac hbc, lor_eq_xor_of_and_eq_zero h]

/-! ### The column spread -/

/-- On 16-bit rows, `Moves::column_from` places nibble `c` of the row at bit
`16 * c`: it is the OR of four disjoint mask-then-shift pieces. -/
theorem column_from_eq {z : Nat} (hz : z < 2 ^ 16) :
    Moves.column_from z =
      (z &&& 0xF) ||| ((z &&& 0xF0) <<< 12) ||| ((z &&& 0xF00) <<< 24)
        ||| ((z &&& 0xF000) <<< 36) := by
  have hz12 : z <<< 12 < 2 ^ 28 := by
    rw [Nat.shiftLeft_eq]
    calc z * 2 ^ 12 < 2 ^ 16 * 2 ^ 12 :=
        (Nat.mul_lt_mul_right (by norm_num)).mpr hz
      _ = 2 ^ 28 := by norm_num
  have hz24 : z <<< 24 < 2 ^ 40 := by
    rw [Nat.shiftLeft_eq]
    calc z * 2 ^ 24 < 2 ^ 16 * 2 ^ 24 :=
        (Nat.mul_lt_mul_right (by norm_num)).mpr hz
      _ = 2 ^ 40 := by norm_num
  have hmod : ∀ s k : Nat, k ≤ s → (z <<< s) % 2 ^ k = 0 := by
    intro s k hk
    rw [Nat.shiftLeft_eq]
    rcases Nat.exists_eq_add_of_le hk with ⟨m, rfl⟩
    rw [Nat.pow_add, ← Nat.mul_assoc, Nat.mul_comm (z) (2 ^ k)]
    rw [Nat.mul_assoc, Nat.mul_comm (2 ^ k), Nat.mul_mod_left]
  unfold Moves.column_from Moves.COL_MASK
  rw [Nat.and_distrib_right, Nat.and_distrib_right, Nat.and_distrib_right]
  have p1 : z &&& 0x000F000F000F000F = z &&& 0xF := by
    rw [and_mask_mod _ hz]
    norm_num
  have p2 : z <<< 12 &&& 0x000F000F000F000F = (z &&& 0xF0) <<< 12 := by
    rw [and_mask_mod _ hz12]
    have hsplit : (0x000F000F000F000F : Nat) % 2 ^ 28 = 0xF ||| 0x000F0000 := by
      decide
    rw [hsplit, Nat.and_or_distrib_left,
      and_eq_zero_of_mod_eq_zero (hmod 12 4 (by norm_num)) (by norm_num),
      Nat.zero_or, shiftLeft_and_distrib]
    norm_num [Nat.shiftLeft_eq]
  have p3 : z <<< 24 &&& 0x000F000F000F000F = (z &&& 0xF00) <<< 24 := by
    rw [and_mask_mod _ hz24]
    have hsplit : (0x000F000F000F000F : Nat) % 2 ^ 40 =
        0x000F000F ||| 0xF00000000 := by decide
    rw [hsplit, Nat.and_or_distrib_left,
      and_eq_zero_of_mod_eq_zero (hmod 24 24 (by norm_num)) (by norm_num),
      Nat.zero_or, shiftLeft_and_distrib]
    norm_num [Nat.shiftLeft_eq]
  have p4 : z <<< 36 &&& 0x000F000F000F000F = (z &&& 0xF000) <<< 36 := by
    have hsplit : (0x000F000F000F000F : Nat) =
        0x000F000F000F ||| 0xF000000000000 := by decide
    rw [hsplit, Nat.and_or_distrib_left,
      and_eq_zero_of_mod_eq_zero (hmod 36 36 (by norm_num)) (by norm_num),
      Nat.zero_or, shiftLeft_and_distrib]
    norm_num [Nat.shiftLeft_eq]
  rw [p1, p2, p3, p4]

/-- Left-commutativity of XOR, for AC rewriting. -/
theorem xor_left_comm (a b c : Nat) : a ^^^ (b ^^^ c) = b ^^^ (a ^^^ c) := by
  rw [← Nat.xor_assoc, Nat.xor_comm a b, Nat.xor_assoc]

/-- `column_from` stays below the column mask. -/
theorem column_from_lt (z : Nat) : Moves.column_from z < 2 ^ 52 :=
  lt_of_le_of_lt Nat.and_le_right (by norm_num [Moves.COL_MASK])

/-- `column_from` is XOR-linear on 16-bit rows. -/
theorem column_from_xor {x y : Nat} (hx : x < 2 ^ 16) (hy : y < 2 ^ 16) :
    Moves.column_from (x ^^^ y) =
      Moves.column_from x ^^^ Moves.column_from y := by
  have hpair : ∀ z w m m' s s' : Nat, (m <<< s) &&& (m' <<< s') = 0 →
      ((z &&& m) <<< s) &&& ((w &&& m') <<< s') = 0 := by
    intro z w m m' s s' h
    rw [shiftLeft_and_distrib, shiftLeft_and_distrib]
    exact and_and_eq_zero_of_masks _ _ h
  have hpair0 : ∀ z w m m' s' : Nat, m &&& (m' <<< s') = 0 →
      (z &&& m) &&& ((w &&& m') <<< s') = 0 := by
    intro z w m m' s' h
    rw [shiftLeft_and_distrib]
    exact and_and_eq_zero_of_masks _ _ h
  rw [column_from_eq (Nat.xor_lt_two_pow hx hy), column_from_eq hx,
    column_from_eq hy]
  rw [or4_eq_xor4 (hpair0 _ _ _ _ _ (by decide)) (hpair0 _ _ _ _ _ (by decide))
      (hpair0 _ _ _ _ _ (by decide)) (hpair _ _ _ _ _ _ (by decide))
      (hpair _ _ _ _ _ _ (by decide)) (hpair _ _ _ _ _ _ (by decide)),
    or4_eq_xor4 (hpair0 _ _ _ _ _ (by decide)) (hpair0 _ _ _ _ _ (by decide))
      (hpair0 _ _ _ _ _ (by decide)) (hpair _ _ _ _ _ _ (by decide))
      (hpair _ _ _ _ _ _ (by decide)) (hpair _ _ _ _ _ _ (by decide)),
    or4_eq_xor4 (hpair0 _ _ _ _ _ (by decide)) (hpair0 _ _ _ _ _ (by decide))
      (hpair0 _ _ _ _ _ (by decide)) (hpair _ _ _ _ _ _ (by decide))
      (hpair _ _ _ _ _ _ (by decide)) (hpair _ _ _ _ _ _ (by decide))]
  rw [Nat.and_xor_distrib_right, Nat.and_xor_distrib_right,
    Nat.and_xor_distrib_right, Nat.and_xor_distrib_right,
    shiftLeft_xor_distrib, shiftLeft_xor_distrib, shiftLeft_xor_distrib]
  simp only [Nat.xor_assoc, xor_left_comm]

/-! ### The nibble reversal -/

/-- `rev` always produces a 16-bit row. -/
theorem rev_lt (z : Nat) : Moves.rev z < 2 ^ 16 := by
  unfold Moves.rev
  have h : ∀ w m : Nat, m < 2 ^ 16 → w &&& m < 2 ^ 16 := fun w m hm =>
    lt_of_le_of_lt Nat.and_le_right hm
  exact Nat.or_lt_two_pow
    (Nat.or_lt_two_pow
      (Nat.or_lt_two_pow (h _ _ (by norm_num)) (h _ _ (by norm_num)))
      (h _ _ (by norm_num)))
    (h _ _ (by norm_num))

/-- `rev` is XOR-linear. -/
theorem rev_xor (x y : Nat) :
    Moves.rev (x ^^^ y) = Moves.rev x ^^^ Moves.rev y := by
  unfold Moves.rev
  have hd : ∀ z w m m' : Nat, m &&& m' = 0 → (z &&& m) &&& (w &&& m') = 0 :=
    fun z w m m' h => and_and_eq_zero_of_masks _ _ h
  rw [or4_eq_xor4 (hd _ _ _ _ (by decide)) (hd _ _ _ _ (by decide))
      (hd _ _ _ _ (by decide)) (hd _ _ _ _ (by decide))
      (hd _ _ _ _ (by decide)) (hd _ _ _ _ (by decide)),
    or4_eq_xor4 (hd _ _ _ _ (by decide)) (hd _ _ _ _ (by decide))
      (hd _ _ _ _ (by decide)) (hd _ _ _ _ (by decide))
      (hd _ _ _ _ (by decide)) (hd _ _ _ _ (by decide)),
    or4_eq_xor4 (hd _ _ _ _ (by decide)) (hd _ _ _ _ (by decide))
      (hd _ _ _ _ (by decide)) (hd _ _ _ _ (by decide))
      (hd _ _ _ _ (by decide)) (hd _ _ _ _ (by decide))]
  rw [shiftRight_xor_distrib, shiftRight_xor_distrib, shiftLeft_xor_distrib,
    shiftLeft_xor_distrib, Nat.and_xor_distrib_right, Nat.and_xor_distrib_right,
    Nat.and_xor_distrib_right, Nat.and_xor_distrib_right]
  simp only [Nat.xor_assoc, xor_left_comm]

/-- `rev` is an involution on 16-bit rows. -/
theorem rev_rev : ∀ r, r < 2 ^ 16 → Moves.rev (Moves.rev r) = r :=
  xorfun_eq (n := 16)
    (f := fun z => Moves.rev (Moves.rev z)) (g := fun z => z)
    (fun x y _ _ => by simp only [rev_xor])
    (fun x y _ _ => rfl)
    (by decide)

/-- Nibble extraction is XOR-linear. -/
theorem nib_xor (x y i : Nat) :
    Moves.nib (x ^^^ y) i = Moves.nib x i ^^^ Moves.nib y i := by
  unfold Moves.nib
  rw [shiftRight_xor_distrib, Nat.and_xor_distrib_right]

/-- `rev` reverses the four nibbles of a 16-bit row. -/
theorem nib_rev {r : Nat} (hr : r < 2 ^ 16) :
    Moves.nib (Moves.rev r) 0 = Moves.nib r 3 ∧
    Moves.nib (Moves.rev r) 1 = Moves.nib r 2 ∧
    Moves.nib (Moves.rev r) 2 = Moves.nib r 1 ∧
    Moves.nib (Moves.rev r) 3 = Moves.nib r 0 := by
  have lin : ∀ i : Nat, ∀ x y : Nat, x < 2 ^ 16 → y < 2 ^ 16 →
      Moves.nib (Moves.rev (x ^^^ y)) i =
        Moves.nib (Moves.rev x) i ^^^ Moves.nib (Moves.rev y) i := by
    intro i x y _ _
    rw [rev_xor, nib_xor]
  have lin' : ∀ i : Nat, ∀ x y : Nat, x < 2 ^ 16 → y < 2 ^ 16 →
      Moves.nib (x ^^^ y) i = Moves.nib x i ^^^ Moves.nib y i :=
    fun i x y _ _ => nib_xor x y i
  refine ⟨?_, ?_, ?_, ?_⟩
  · exact xorfun_eq (n := 16) (f := fun z => Moves.nib (Moves.rev z) 0)
      (g := fun z => Moves.nib z 3) (lin 0) (lin' 3) (by decide) r hr
  · exact xorfun_eq (n := 16) (f := fun z => Moves.nib (Moves.rev z) 1)
      (g := fun z => Moves.nib z 2) (lin 1) (lin' 2) (by decide) r hr
  · exact xorfun_eq (n := 16) (f := fun z => Moves.nib (Moves.rev z) 2)
      (g := fun z => Moves.nib z 1) (lin 2) (lin' 1) (by decide) r hr
  · exact xorfun_eq (n := 16) (f := fun z => Moves.nib (Moves.rev z) 3)
      (g := fun z => Moves.nib z 0) (lin 3) (lin' 0) (by decide) r hr

/-! ### Structural facts about the row compaction/merge loop -/

theorem getD_set_self {l : List Nat} {i : Nat} (v : Nat) (h : i < l.length) :
    (l.set i v).getD i 0 = v := by
  simp [List.getD_eq_getElem?_getD, List.getElem?_set_self h]

theorem getD_set_ne {l : List Nat} {i j : Nat} (v : Nat) (h : i ≠ j) :
    (l.set i v).getD j 0 = l.getD j 0 := by
  simp [List.getD_eq_getElem?_getD, List.getElem?_set_ne h]

/-- Specification of the inner nonzero-cell search of `Moves::new`. -/
theorem findNZ_spec (line : List Nat) :
    ∀ fuel j, 4 - j < fuel → j ≤ 4 →
      j ≤ Moves.findNZ line fuel j ∧ Moves.findNZ line fuel j ≤ 4 ∧
      (∀ m, j ≤ m → m < Moves.findNZ line fuel j → line.getD m 0 = 0) ∧
      (Moves.findNZ line fuel j < 4 →
        line.getD (Moves.findNZ line fuel j) 0 ≠ 0) := by
  intro fuel
  induction fuel with
  | zero => intro j h _; omega
  | succ fuel ih =>
    intro j hfj hj4
    by_cases hj : j < 4
    · by_cases hg : line.getD j 0 = 0
      · have he : Moves.findNZ line (fuel + 1) j = Moves.findNZ line fuel (j + 1) := by
          simp only [Moves.findNZ]
          rw [if_pos hj, if_neg (not_not_intro hg)]
        rw [he]
        obtain ⟨h1, h2, h3, h4⟩ := ih (j + 1) (by omega) (by omega)
        refine ⟨by omega, h2, ?_, h4⟩
        intro m hm1 hm2
        rcases Nat.eq_or_lt_of_le hm1 with heq | hlt
        · rw [← heq]; exact hg
        · exact h3 m (by omega) hm2
      · have he : Moves.findNZ line (fuel + 1) j = j := by
          simp only [Moves.findNZ]
          rw [if_pos hj, if_pos hg]
        rw [he]
        exact ⟨le_refl _, by omega, fun m h1 h2 => by omega, fun _ => hg⟩
    · have he : Moves.findNZ line (fuel + 1) j = j := by
        simp only [Moves.findNZ]
        rw [if_neg hj]
      rw [he]
      exact ⟨le_refl _, by omega, fun m h1 h2 => by omega, fun h => by omega⟩

theorem getD_set_single {line : List Nat} (hlen : line.length = 4) {i : Nat}
    (hi : i < 4) (v : Nat) :
    ∀ m, (line.set i v).getD m 0 = if m = i then v else line.getD m 0 := by
  intro m
  by_cases h : m = i
  · subst h
    rw [getD_set_self v (by omega), if_pos rfl]
  · rw [getD_set_ne v (fun hc => h hc.symm), if_neg h]

theorem getD_set_set {line : List Nat} (hlen : line.length = 4) {i k : Nat}
    (hik : i ≠ k) (hi : i < 4) (hk : k < 4) (v w : Nat) :
    ∀ m, ((line.set i v).set k w).getD m 0 =
      if m = k then w else if m = i then v else line.getD m 0 := by
  intro m
  by_cases h1 : m = k
  · subst h1
    rw [getD_set_self w (by simp [hlen]; omega), if_pos rfl]
  · rw [getD_set_ne w (fun hc => h1 hc.symm), if_neg h1]
    exact getD_set_single hlen hi v m

theorem ite_eq_zero_le_one (c : Nat) : (if c = 0 then (1 : Nat) else 0) ≤ 1 := by
  by_cases h : c = 0 <;> simp [h]

/-- Invariant of the `while i < 3` loop of `Moves::new`: on a 4-cell line of
nibble values, with all cells before the write cursor nonzero, the loop
returns a 4-cell line of nibble values in which no zero cell is followed by a
nonzero cell. -/
theorem moveLineLoop_invariant :
    ∀ fuel line i, line.length = 4 → i ≤ 3 →
      (∀ m : Nat, line.getD m 0 ≤ 15) →
      (∀ m : Nat, m < i → line.getD m 0 ≠ 0) →
      2 * (3 - i) + (if line.getD i 0 = 0 then 1 else 0) < fuel →
      (Moves.moveLineLoop line i fuel).length = 4 ∧
      (∀ m : Nat, (Moves.moveLineLoop line i fuel).getD m 0 ≤ 15) ∧
      (∀ m : Nat, m < 3 → (Moves.moveLineLoop line i fuel).getD m 0 = 0 →
        (Moves.moveLineLoop line i fuel).getD (m + 1) 0 = 0) := by
  intro fuel
  induction fuel with
  | zero => intro line i _ _ _ _ hfuel; omega
  | succ fuel ih =>
    intro line i hlen hi hbound hpre hfuel
    by_cases hi3 : i < 3
    · obtain ⟨hk1, hk2, hk3, hk4nz⟩ := findNZ_spec line 8 (i + 1) (by omega) (by omega)
      by_cases hk4 : Moves.findNZ line 8 (i + 1) = 4
      · have he : Moves.moveLineLoop line i (fuel + 1) = line := by
          simp only [Moves.moveLineLoop]
          rw [if_pos hi3, if_pos hk4]
        rw [he]
        rw [hk4] at hk3
        refine ⟨hlen, hbound, ?_⟩
        intro m hm hz
        by_cases hmi : m < i
        · exact absurd hz (hpre m hmi)
        · exact hk3 (m + 1) (by omega) (by omega)
      · have hklt : Moves.findNZ line 8 (i + 1) < 4 := by omega
        have hknz := hk4nz hklt
        have hik : i ≠ Moves.findNZ line 8 (i + 1) := by omega
        by_cases hgi : line.getD i 0 = 0
        · -- slide the next nonzero cell into position i and retry i
          have he : Moves.moveLineLoop line i (fuel + 1) =
              Moves.moveLineLoop
                ((line.set i (line.getD (Moves.findNZ line 8 (i + 1)) 0)).set
                  (Moves.findNZ line 8 (i + 1)) 0) i fuel := by
            simp only [Moves.moveLineLoop]
            rw [if_pos hi3, if_neg hk4, if_pos hgi]
          rw [he]
          have hget := getD_set_set hlen hik (by omega) hklt
            (line.getD (Moves.findNZ line 8 (i + 1)) 0) 0
          apply ih
          · simp [hlen]
          · exact hi
          · intro m
            rw [hget m]
            split
            · omega
            · split
              · exact hbound _
              · exact hbound _
          · intro m hm
            rw [hget m]
            rw [if_neg (by omega), if_neg (by omega)]
            exact hpre m hm
          · rw [hget i, if_neg hik, if_pos rfl, if_neg hknz]
            rw [if_pos hgi] at hfuel
            omega
        · by_cases heq : line.getD i 0 = line.getD (Moves.findNZ line 8 (i + 1)) 0
          · -- merge the equal pair and advance
            have he : Moves.moveLineLoop line i (fuel + 1) =
                Moves.moveLineLoop
                  ((if line.getD i 0 ≠ 0xF then line.set i (line.getD i 0 + 1)
                    else line).set (Moves.findNZ line 8 (i + 1)) 0)
                  (i + 1) fuel := by
              simp only [Moves.moveLineLoop]
              rw [if_pos hi3, if_neg hk4, if_neg hgi, if_pos heq]
            rw [he]
            rw [if_neg hgi] at hfuel
            by_cases hcap : line.getD i 0 ≠ 0xF
            · rw [if_pos hcap]
              have hget := getD_set_set hlen hik (by omega) hklt
                (line.getD i 0 + 1) 0
              apply ih
              · simp [hlen]
              · omega
              · intro m
                rw [hget m]
                split
                · omega
                · split
                  · have := hbound i
                    omega
                  · exact hbound _
              · intro m hm
                rw [hget m]
                rw [if_neg (by omega)]
                by_cases hmi : m = i
                · rw [if_pos hmi]
                  omega
                · rw [if_neg hmi]
                  exact hpre m (by omega)
              · exact lt_of_le_of_lt
                  (Nat.add_le_add_left (ite_eq_zero_le_one _) _) (by omega)
            · rw [if_neg hcap]
              have hget := getD_set_single
                (by simp [hlen] : (line.set (Moves.findNZ line 8 (i + 1))
                  (0 : Nat)).length = 4) hklt 0
              apply ih
              · simp [hlen]
              · omega
              · intro m
                rw [getD_set_single hlen hklt 0 m]
                split
                · omega
                · exact hbound _
              · intro m hm
                rw [getD_set_single hlen hklt 0 m, if_neg (by omega)]
                by_cases hmi : m = i
                · subst hmi
                  exact hgi
                · exact hpre m (by omega)
              · exact lt_of_le_of_lt
                  (Nat.add_le_add_left (ite_eq_zero_le_one _) _) (by omega)
          · -- unequal pair: just advance the cursor
            have he : Moves.moveLineLoop line i (fuel + 1) =
                Moves.moveLineLoop line (i + 1) fuel := by
              simp only [Moves.moveLineLoop]
              rw [if_pos hi3, if_neg hk4, if_neg hgi, if_neg heq]
            rw [he]
            rw [if_neg hgi] at hfuel
            apply ih
            · exact hlen
            · omega
            · exact hbound
            · intro m hm
              by_cases hmi : m = i
              · subst hmi
                exact hgi
              · exact hpre m (by omega)
            · exact lt_of_le_of_lt
                (Nat.add_le_add_left (ite_eq_zero_le_one _) _) (by omega)
    · have he : Moves.moveLineLoop line i (fuel + 1) = line := by
        simp only [Moves.moveLineLoop]
        rw [if_neg hi3]
      rw [he]
      refine ⟨hlen, hbound, ?_⟩
      intro m hm hz
      exact absurd hz (hpre m (by omega))

/-- In a line where a zero cell is never followed by a nonzero cell, every
cell from a zero cell on is zero. -/
theorem zeros_chain {line : List Nat}
    (hcomp : ∀ m : Nat, m < 3 → line.getD m 0 = 0 → line.getD (m + 1) 0 = 0)
    {i : Nat} (hgi : line.getD i 0 = 0) :
    ∀ m, i ≤ m → m < 4 → line.getD m 0 = 0 := by
  intro m
  induction m with
  | zero =>
    intro h1 _
    have h0 : i = 0 := by omega
    rw [h0] at hgi
    exact hgi
  | succ m ihm =>
    intro h1 h2
    rcases Nat.eq_or_lt_of_le h1 with heq | hlt
    · rw [← heq]
      exact hgi
    · exact hcomp m (by omega) (ihm (by omega) (by omega))

/-- The compaction/merge loop leaves a line unchanged when the line is already
compacted (no zero cell followed by a nonzero cell) and has no two adjacent
equal nonzero cells. -/
theorem moveLineLoop_fixpoint :
    ∀ fuel line i, line.length = 4 → i ≤ 3 →
      (∀ m : Nat, m < i → line.getD m 0 ≠ 0) →
      (∀ m : Nat, m < 3 → line.getD m 0 = 0 → line.getD (m + 1) 0 = 0) →
      (∀ m : Nat, m < 3 → line.getD m 0 ≠ 0 →
        line.getD m 0 ≠ line.getD (m + 1) 0) →
      3 - i < fuel →
      Moves.moveLineLoop line i fuel = line := by
  intro fuel
  induction fuel with
  | zero => intro line i _ _ _ _ _ hfuel; omega
  | succ fuel ih =>
    intro line i hlen hi hpre hcomp hadj hfuel
    by_cases hi3 : i < 3
    · obtain ⟨hk1, hk2, hk3, hk4nz⟩ := findNZ_spec line 8 (i + 1) (by omega) (by omega)
      by_cases hgi : line.getD i 0 = 0
      · have hz := zeros_chain hcomp hgi
        have hk4 : Moves.findNZ line 8 (i + 1) = 4 := by
          by_contra h
          exact (hk4nz (by omega)) (hz _ (by omega) (by omega))
        simp only [Moves.moveLineLoop]
        rw [if_pos hi3, if_pos hk4]
      · by_cases hgi1 : line.getD (i + 1) 0 = 0
        · have hz := zeros_chain hcomp hgi1
          have hk4 : Moves.findNZ line 8 (i + 1) = 4 := by
            by_contra h
            exact (hk4nz (by omega)) (hz _ (by omega) (by omega))
          simp only [Moves.moveLineLoop]
          rw [if_pos hi3, if_pos hk4]
        · have hk : Moves.findNZ line 8 (i + 1) = i + 1 := by
            by_contra h
            exact hgi1 (hk3 (i + 1) (le_refl _) (by omega))
          have hne : ¬ line.getD i 0 = line.getD (i + 1) 0 := hadj i hi3 hgi
          have he : Moves.moveLineLoop line i (fuel + 1) =
              Moves.moveLineLoop line (i + 1) fuel := by
            simp only [Moves.moveLineLoop]
            rw [hk, if_pos hi3, if_neg (by omega : ¬ i + 1 = 4), if_neg hgi,
              if_neg hne]
          rw [he]
          apply ih line (i + 1) hlen (by omega) ?_ hcomp hadj (by omega)
          intro m hm
          by_cases hmi : m = i
          · rw [hmi]
            exact hgi
          · exact hpre m (by omega)
    · simp only [Moves.moveLineLoop]
      rw [if_neg hi3]

theorem nib_le (r i : Nat) : Moves.nib r i ≤ 15 := Nat.and_le_right

theorem nib_eq_div_mod (x i : Nat) :
    Moves.nib x i = x / 2 ^ (4 * i) % 2 ^ 4 := by
  unfold Moves.nib
  rw [Nat.shiftRight_eq_div_pow,
    show (0xF : Nat) = 2 ^ 4 - 1 by norm_num, Nat.and_pow_two_sub_one_eq_mod]

/-- Reassembling four nibble-sized cells is plain positional arithmetic. -/
theorem assemble_eq_sum {a b c d : Nat} (ha : a ≤ 15) (hb : b ≤ 15)
    (hc : c ≤ 15) (_hd : d ≤ 15) :
    a ||| (b <<< 4) ||| (c <<< 8) ||| (d <<< 12) =
      a + b * 16 + c * 256 + d * 4096 := by
  have h1 : a ||| (b <<< 4) = 2 ^ 4 * b + a := by
    rw [Nat.shiftLeft_eq, Nat.lor_comm, Nat.mul_comm b (2 ^ 4),
      ← Nat.mul_add_lt_is_or (show a < 2 ^ 4 by omega) b]
  have h1' : 2 ^ 4 * b + a ≤ 255 := by
    have : 2 ^ 4 * b ≤ 2 ^ 4 * 15 := Nat.mul_le_mul_left _ hb
    omega
  have h2 : (2 ^ 4 * b + a) ||| (c <<< 8) = 2 ^ 8 * c + (2 ^ 4 * b + a) := by
    rw [Nat.shiftLeft_eq, Nat.lor_comm, Nat.mul_comm c (2 ^ 8),
      ← Nat.mul_add_lt_is_or (show 2 ^ 4 * b + a < 2 ^ 8 by omega) c]
  have h2' : 2 ^ 8 * c + (2 ^ 4 * b + a) ≤ 4095 := by
    have : 2 ^ 8 * c ≤ 2 ^ 8 * 15 := Nat.mul_le_mul_left _ hc
    omega
  have h3 : (2 ^ 8 * c + (2 ^ 4 * b + a)) ||| (d <<< 12) =
      2 ^ 12 * d + (2 ^ 8 * c + (2 ^ 4 * b + a)) := by
    rw [Nat.shiftLeft_eq, Nat.lor_comm, Nat.mul_comm d (2 ^ 12),
      ← Nat.mul_add_lt_is_or (show 2 ^ 8 * c + (2 ^ 4 * b + a) < 2 ^ 12 by omega) d]
  rw [h1, h2, h3]
  have e4 : (2 : Nat) ^ 4 = 16 := by norm_num
  have e8 : (2 : Nat) ^ 8 = 256 := by norm_num
  have e12 : (2 : Nat) ^ 12 = 4096 := by norm_num
  rw [e4, e8, e12]
  omega

theorem getD_decode (r : Nat) :
    ∀ m : Nat,
      [Moves.nib r 0, Moves.nib r 1, Moves.nib r 2, Moves.nib r 3].getD m 0 =
        if m = 0 then Moves.nib r 0 else if m = 1 then Moves.nib r 1
        else if m = 2 then Moves.nib r 2 else if m = 3 then Moves.nib r 3
        else 0 := by
  intro m
  rcases m with _ | _ | _ | _ | m <;> simp

/-- The merged row is a 16-bit value whose cells are the output cells of the loop,
and within it no zero cell is followed (toward higher nibbles) by a nonzero
cell. -/
theorem res_spec (r : Nat) :
    Moves.res r < 2 ^ 16 ∧
    (∀ m : Nat, m < 3 → Moves.nib (Moves.res r) m = 0 →
      Moves.nib (Moves.res r) (m + 1) = 0) := by
  obtain ⟨hlen, hbound, hcomp⟩ :=
    moveLineLoop_invariant 16 [Moves.nib r 0, Moves.nib r 1, Moves.nib r 2,
      Moves.nib r 3] 0 rfl (by omega)
      (by
        intro m
        rw [getD_decode]
        split
        · exact nib_le r 0
        · split
          · exact nib_le r 1
          · split
            · exact nib_le r 2
            · split
              · exact nib_le r 3
              · omega)
      (fun m hm => absurd hm (by omega))
      (by
        have := ite_eq_zero_le_one
          (([Moves.nib r 0, Moves.nib r 1, Moves.nib r 2,
            Moves.nib r 3]).getD 0 0)
        omega)
  have hres : Moves.res r =
      (Moves.moveLineLoop [Moves.nib r 0, Moves.nib r 1, Moves.nib r 2,
        Moves.nib r 3] 0 16).getD 0 0
      + (Moves.moveLineLoop [Moves.nib r 0, Moves.nib r 1, Moves.nib r 2,
        Moves.nib r 3] 0 16).getD 1 0 * 16
      + (Moves.moveLineLoop [Moves.nib r 0, Moves.nib r 1, Moves.nib r 2,
        Moves.nib r 3] 0 16).getD 2 0 * 256
      + (Moves.moveLineLoop [Moves.nib r 0, Moves.nib r 1, Moves.nib r 2,
        Moves.nib r 3] 0 16).getD 3 0 * 4096 := by
    simp only [Moves.res]
    exact assemble_eq_sum (hbound 0) (hbound 1) (hbound 2) (hbound 3)
  constructor
  · rw [hres]
    have h0 := hbound 0
    have h1 := hbound 1
    have h2 := hbound 2
    have h3 := hbound 3
    omega
  · intro m hm
    have h0 := hbound 0
    have h1 := hbound 1
    have h2 := hbound 2
    have h3 := hbound 3
    have hnib : ∀ j : Nat, j < 4 → Moves.nib (Moves.res r) j =
        (Moves.moveLineLoop [Moves.nib r 0, Moves.nib r 1, Moves.nib r 2,
          Moves.nib r 3] 0 16).getD j 0 := by
      intro j hj
      interval_cases j <;>
        (rw [nib_eq_div_mod, hres]
         simp only [show (2 : Nat) ^ (4 * 0) = 1 by norm_num,
           show (2 : Nat) ^ (4 * 1) = 16 by norm_num,
           show (2 : Nat) ^ (4 * 2) = 256 by norm_num,
           show (2 : Nat) ^ (4 * 3) = 4096 by norm_num,
           show (2 : Nat) ^ 4 = 16 by norm_num]
         omega)
    rw [hnib m (by omega), hnib (m + 1) (by omega)]
    exact hcomp m hm

/-- A 16-bit row that is already compacted toward nibble 0 and has no equal
adjacent nonzero cells is a fixed point of the row move. -/
theorem res_fixpoint {r : Nat} (hr : r < 2 ^ 16)
    (hcomp : ∀ m : Nat, m < 3 → Moves.nib r m = 0 → Moves.nib r (m + 1) = 0)
    (hadj : ∀ m : Nat, m < 3 → Moves.nib r m ≠ 0 →
      Moves.nib r m ≠ Moves.nib r (m + 1)) :
    Moves.res r = r := by
  have hfix := moveLineLoop_fixpoint 16
    [Moves.nib r 0, Moves.nib r 1, Moves.nib r 2, Moves.nib r 3] 0 rfl
    (by omega)
    (fun m hm => absurd hm (by omega))
    (by
      intro m hm
      rw [getD_decode, getD_decode]
      interval_cases m
      · norm_num
        exact hcomp 0 (by norm_num)
      · norm_num
        exact hcomp 1 (by norm_num)
      · norm_num
        exact hcomp 2 (by norm_num))
    (by
      intro m hm
      rw [getD_decode, getD_decode]
      interval_cases m
      · norm_num
        exact hadj 0 (by norm_num)
      · norm_num
        exact hadj 1 (by norm_num)
      · norm_num
        exact hadj 2 (by norm_num))
    (by omega)
  have hres : Moves.res r = Moves.nib r 0 ||| (Moves.nib r 1 <<< 4)
      ||| (Moves.nib r 2 <<< 8) ||| (Moves.nib r 3 <<< 12) := by
    simp only [Moves.res, hfix]
    rfl
  rw [hres, assemble_eq_sum (nib_le r 0) (nib_le r 1) (nib_le r 2) (nib_le r 3)]
  rw [nib_eq_div_mod, nib_eq_div_mod, nib_eq_div_mod, nib_eq_div_mod]
  simp only [show (2 : Nat) ^ (4 * 0) = 1 by norm_num,
    show (2 : Nat) ^ (4 * 1) = 16 by norm_num,
    show (2 : Nat) ^ (4 * 2) = 256 by norm_num,
    show (2 : Nat) ^ (4 * 3) = 4096 by norm_num,
    show (2 : Nat) ^ 4 = 16 by norm_num]
  omega

/-! ### Row lanes of a board -/

theorem rowAt_eq_div_mod (b k : Nat) :
    Game.rowAt b k = b / 2 ^ (16 * k) % 2 ^ 16 := by
  unfold Game.rowAt Moves.ROW_MASK
  rw [Nat.shiftRight_eq_div_pow,
    show (0xFFFF : Nat) = 2 ^ 16 - 1 by norm_num,
    Nat.and_pow_two_sub_one_eq_mod]

theorem rowAt_lt (b k : Nat) : Game.rowAt b k < 2 ^ 16 := by
  rw [rowAt_eq_div_mod]
  exact Nat.mod_lt _ (by norm_num)

theorem rowAt_xor (x y k : Nat) :
    Game.rowAt (x ^^^ y) k = Game.rowAt x k ^^^ Game.rowAt y k := by
  unfold Game.rowAt
  rw [shiftRight_xor_distrib, Nat.and_xor_distrib_right]

theorem rowAt_shiftLeft {u : Nat} (hu : u < 2 ^ 16) :
    ∀ j k : Nat, j < 4 → k < 4 →
      Game.rowAt (u <<< (16 * j)) k = if j = k then u else 0 := by
  intro j k hj hk
  rw [rowAt_eq_div_mod, Nat.shiftLeft_eq]
  interval_cases j <;> interval_cases k <;>
    simp only [show (2 : Nat) ^ (16 * 0) = 1 by norm_num,
      show (2 : Nat) ^ (16 * 1) = 2 ^ 16 by norm_num,
      show (2 : Nat) ^ (16 * 2) = 2 ^ 32 by norm_num,
      show (2 : Nat) ^ (16 * 3) = 2 ^ 48 by norm_num,
      show (2 : Nat) ^ 16 = 65536 by norm_num,
      show (2 : Nat) ^ 32 = 4294967296 by norm_num,
      show (2 : Nat) ^ 48 = 281474976710656 by norm_num] <;>
    norm_num <;> omega

/-- Two 64-bit boards with equal row slices are equal. -/
theorem rows_ext {a b : Nat} (ha : a < 2 ^ 64) (hb : b < 2 ^ 64)
    (h : ∀ k, k < 4 → Game.rowAt a k = Game.rowAt b k) : a = b := by
  have h0 := h 0 (by norm_num)
  have h1 := h 1 (by norm_num)
  have h2 := h 2 (by norm_num)
  have h3 := h 3 (by norm_num)
  rw [rowAt_eq_div_mod, rowAt_eq_div_mod] at h0 h1 h2 h3
  simp only [show (2 : Nat) ^ (16 * 0) = 1 by norm_num,
    show (2 : Nat) ^ (16 * 1) = 65536 by norm_num,
    show (2 : Nat) ^ (16 * 2) = 4294967296 by norm_num,
    show (2 : Nat) ^ (16 * 3) = 281474976710656 by norm_num,
    show (2 : Nat) ^ 16 = 65536 by norm_num] at h0 h1 h2 h3
  have h64 : (2 : Nat) ^ 64 = 18446744073709551616 := by norm_num
  rw [h64] at ha hb
  omega

theorem right_tab_lt {r : Nat} (hr : r < 2 ^ 16) : Moves.right_tab r < 2 ^ 16 :=
  Nat.xor_lt_two_pow hr (res_spec r).1

theorem left_tab_lt {q : Nat} (hq : q < 2 ^ 16) : Moves.left_tab q < 2 ^ 16 :=
  Nat.xor_lt_two_pow hq (rev_lt _)

theorem shl_lt {x m n : Nat} (hx : x < 2 ^ m) (h : m + n ≤ 64) :
    x <<< n < 2 ^ 64 := by
  rw [Nat.shiftLeft_eq]
  calc x * 2 ^ n < 2 ^ m * 2 ^ n := by
        exact (Nat.mul_lt_mul_right (Nat.two_pow_pos n)).mpr hx
    _ = 2 ^ (m + n) := by rw [Nat.pow_add]
    _ ≤ 2 ^ 64 := Nat.pow_le_pow_right (by norm_num) h

theorem move_right_lt {b : Nat} (hb : b < 2 ^ 64) : Game.move_right b < 2 ^ 64 := by
  unfold Game.move_right
  have t16 : (2 : Nat) ^ 16 ≤ 2 ^ 64 := by norm_num
  apply Nat.xor_lt_two_pow
  apply Nat.xor_lt_two_pow
  apply Nat.xor_lt_two_pow
  apply Nat.xor_lt_two_pow hb
  · exact lt_of_lt_of_le (right_tab_lt (rowAt_lt b 0)) t16
  · exact shl_lt (right_tab_lt (rowAt_lt b 1)) (by norm_num)
  · exact shl_lt (right_tab_lt (rowAt_lt b 2)) (by norm_num)
  · exact shl_lt (right_tab_lt (rowAt_lt b 3)) (by norm_num)

theorem move_left_lt {b : Nat} (hb : b < 2 ^ 64) : Game.move_left b < 2 ^ 64 := by
  unfold Game.move_left
  have t16 : (2 : Nat) ^ 16 ≤ 2 ^ 64 := by norm_num
  apply Nat.xor_lt_two_pow
  apply Nat.xor_lt_two_pow
  apply Nat.xor_lt_two_pow
  apply Nat.xor_lt_two_pow hb
  · exact lt_of_lt_of_le (left_tab_lt (rowAt_lt b 0)) t16
  · exact shl_lt (left_tab_lt (rowAt_lt b 1)) (by norm_num)
  · exact shl_lt (left_tab_lt (rowAt_lt b 2)) (by norm_num)
  · exact shl_lt (left_tab_lt (rowAt_lt b 3)) (by norm_num)

theorem down_tab_lt (r : Nat) : Moves.down_tab r < 2 ^ 52 :=
  Nat.xor_lt_two_pow (column_from_lt r) (column_from_lt _)

theorem up_tab_lt (q : Nat) : Moves.up_tab q < 2 ^ 52 :=
  Nat.xor_lt_two_pow (column_from_lt q) (column_from_lt _)

theorem move_down_lt {b : Nat} (hb : b < 2 ^ 64) : Game.move_down b < 2 ^ 64 := by
  unfold Game.move_down
  have t52 : (2 : Nat) ^ 52 ≤ 2 ^ 64 := by norm_num
  apply Nat.xor_lt_two_pow
  apply Nat.xor_lt_two_pow
  apply Nat.xor_lt_two_pow
  apply Nat.xor_lt_two_pow hb
  · exact lt_of_lt_of_le (down_tab_lt _) t52
  · exact shl_lt (down_tab_lt _) (by norm_num)
  · exact shl_lt (down_tab_lt _) (by norm_num)
  · exact shl_lt (down_tab_lt _) (by norm_num)

theorem move_up_lt {b : Nat} (hb : b < 2 ^ 64) : Game.move_up b < 2 ^ 64 := by
  unfold Game.move_up
  have t52 : (2 : Nat) ^ 52 ≤ 2 ^ 64 := by norm_num
  apply Nat.xor_lt_two_pow
  apply Nat.xor_lt_two_pow
  apply Nat.xor_lt_two_pow
  apply Nat.xor_lt_two_pow hb
  · exact lt_of_lt_of_le (up_tab_lt _) t52
  · exact shl_lt (up_tab_lt _) (by norm_num)
  · exact shl_lt (up_tab_lt _) (by norm_num)
  · exact shl_lt (up_tab_lt _) (by norm_num)

/-- Row `k` of a right-moved board is the merged row `k` of the input. -/
theorem move_right_rowAt (b : Nat) : ∀ k : Nat, k < 4 →
    Game.rowAt (Game.move_right b) k = Moves.res (Game.rowAt b k) := by
  intro k hk
  unfold Game.move_right
  rw [show Moves.right_tab (Game.rowAt b 0) =
    Moves.right_tab (Game.rowAt b 0) <<< (16 * 0) by simp]
  rw [rowAt_xor, rowAt_xor, rowAt_xor, rowAt_xor]
  rw [rowAt_shiftLeft (right_tab_lt (rowAt_lt b 0)) 0 k (by norm_num) hk,
    rowAt_shiftLeft (right_tab_lt (rowAt_lt b 1)) 1 k (by norm_num) hk,
    rowAt_shiftLeft (right_tab_lt (rowAt_lt b 2)) 2 k (by norm_num) hk,
    rowAt_shiftLeft (right_tab_lt (rowAt_lt b 3)) 3 k (by norm_num) hk]
  interval_cases k <;> simp [Moves.right_tab, ← Nat.xor_assoc]

/-- Row `k` of a left-moved board is the reversed merge of the reversed row. -/
theorem move_left_rowAt (b : Nat) : ∀ k : Nat, k < 4 →
    Game.rowAt (Game.move_left b) k =
      Moves.rev (Moves.res (Moves.rev (Game.rowAt b k))) := by
  intro k hk
  unfold Game.move_left
  rw [show Moves.left_tab (Game.rowAt b 0) =
    Moves.left_tab (Game.rowAt b 0) <<< (16 * 0) by simp]
  rw [rowAt_xor, rowAt_xor, rowAt_xor, rowAt_xor]
  rw [rowAt_shiftLeft (left_tab_lt (rowAt_lt b 0)) 0 k (by norm_num) hk,
    rowAt_shiftLeft (left_tab_lt (rowAt_lt b 1)) 1 k (by norm_num) hk,
    rowAt_shiftLeft (left_tab_lt (rowAt_lt b 2)) 2 k (by norm_num) hk,
    rowAt_shiftLeft (left_tab_lt (rowAt_lt b 3)) 3 k (by norm_num) hk]
  interval_cases k <;> simp [Moves.left_tab, ← Nat.xor_assoc]

/-- Transposing a single row lane spreads it into the matching column lane. -/
theorem transpose_row_shift : ∀ k : Nat, k < 4 → ∀ x : Nat, x < 2 ^ 16 →
    Game.transpose (x <<< (16 * k)) = Moves.column_from x <<< (4 * k) := by
  intro k hk
  interval_cases k
  · exact xorfun_eq (n := 16)
      (f := fun z => Game.transpose (z <<< (16 * 0)))
      (g := fun z => Moves.column_from z <<< (4 * 0))
      (fun x y _ _ => by
        simp only [shiftLeft_xor_distrib, transpose_xor])
      (fun x y hx hy => by
        simp only [column_from_xor hx hy, shiftLeft_xor_distrib])
      (by decide)
  · exact xorfun_eq (n := 16)
      (f := fun z => Game.transpose (z <<< (16 * 1)))
      (g := fun z => Moves.column_from z <<< (4 * 1))
      (fun x y _ _ => by
        simp only [shiftLeft_xor_distrib, transpose_xor])
      (fun x y hx hy => by
        simp only [column_from_xor hx hy, shiftLeft_xor_distrib])
      (by decide)
  · exact xorfun_eq (n := 16)
      (f := fun z => Game.transpose (z <<< (16 * 2)))
      (g := fun z => Moves.column_from z <<< (4 * 2))
      (fun x y _ _ => by
        simp only [shiftLeft_xor_distrib, transpose_xor])
      (fun x y hx hy => by
        simp only [column_from_xor hx hy, shiftLeft_xor_distrib])
      (by decide)
  · exact xorfun_eq (n := 16)
      (f := fun z => Game.transpose (z <<< (16 * 3)))
      (g := fun z => Moves.column_from z <<< (4 * 3))
      (fun x y _ _ => by
        simp only [shiftLeft_xor_distrib, transpose_xor])
      (fun x y hx hy => by
        simp only [column_from_xor hx hy, shiftLeft_xor_distrib])
      (by decide)

/-- `transpose_row_shift` at the four literal row offsets. -/
theorem transpose_row_shift' {x : Nat} (hx : x < 2 ^ 16) :
    Game.transpose x = Moves.column_from x ∧
    Game.transpose (x <<< 16) = Moves.column_from x <<< 4 ∧
    Game.transpose (x <<< 32) = Moves.column_from x <<< 8 ∧
    Game.transpose (x <<< 48) = Moves.column_from x <<< 12 := by
  have h0 := transpose_row_shift 0 (by norm_num) x hx
  have h1 := transpose_row_shift 1 (by norm_num) x hx
  have h2 := transpose_row_shift 2 (by norm_num) x hx
  have h3 := transpose_row_shift 3 (by norm_num) x hx
  norm_num at h0 h1 h2 h3
  exact ⟨h0, h1, h2, h3⟩

/-- `Game::move_down` agrees with conjugating `Game::move_right` by the
transpose. -/
theorem move_down_conj {b : Nat} (hb : b < 2 ^ 64) :
    Game.move_down b = Game.transpose (Game.move_right (Game.transpose b)) := by
  symm
  unfold Game.move_right
  rw [transpose_xor, transpose_xor, transpose_xor, transpose_xor,
    transpose_transpose b hb]
  rw [(transpose_row_shift' (right_tab_lt (rowAt_lt (Game.transpose b) 0))).1,
    (transpose_row_shift' (right_tab_lt (rowAt_lt (Game.transpose b) 1))).2.1,
    (transpose_row_shift' (right_tab_lt (rowAt_lt (Game.transpose b) 2))).2.2.1,
    (transpose_row_shift' (right_tab_lt (rowAt_lt (Game.transpose b) 3))).2.2.2]
  simp only [Game.move_down, Moves.down_tab, Moves.right_tab]
  rw [column_from_xor (rowAt_lt _ 0) (res_spec _).1,
    column_from_xor (rowAt_lt _ 1) (res_spec _).1,
    column_from_xor (rowAt_lt _ 2) (res_spec _).1,
    column_from_xor (rowAt_lt _ 3) (res_spec _).1]

/-- `Game::move_up` agrees with conjugating `Game::move_left` by the
transpose. -/
theorem move_up_conj {b : Nat} (hb : b < 2 ^ 64) :
    Game.move_up b = Game.transpose (Game.move_left (Game.transpose b)) := by
  symm
  unfold Game.move_left
  rw [transpose_xor, transpose_xor, transpose_xor, transpose_xor,
    transpose_transpose b hb]
  rw [(transpose_row_shift' (left_tab_lt (rowAt_lt (Game.transpose b) 0))).1,
    (transpose_row_shift' (left_tab_lt (rowAt_lt (Game.transpose b) 1))).2.1,
    (transpose_row_shift' (left_tab_lt (rowAt_lt (Game.transpose b) 2))).2.2.1,
    (transpose_row_shift' (left_tab_lt (rowAt_lt (Game.transpose b) 3))).2.2.2]
  simp only [Game.move_up, Moves.up_tab, Moves.left_tab]
  rw [column_from_xor (rowAt_lt _ 0) (rev_lt _),
    column_from_xor (rowAt_lt _ 1) (rev_lt _),
    column_from_xor (rowAt_lt _ 2) (rev_lt _),
    column_from_xor (rowAt_lt _ 3) (rev_lt _)]

/-! ### Predicate bridges and per-direction helpers -/

theorem noAdjEq_props {r : Nat} (h : noAdjEq r = true) :
    ∀ m : Nat, m < 3 → Moves.nib r m ≠ 0 →
      Moves.nib r m ≠ Moves.nib r (m + 1) := by
  unfold noAdjEq at h
  simp only [Bool.and_eq_true, Bool.or_eq_true, beq_iff_eq, bne_iff_ne] at h
  intro m hm
  interval_cases m <;> tauto

theorem compactedHigh_intro {r : Nat}
    (h : ∀ m : Nat, m < 3 → Moves.nib r (m + 1) = 0 → Moves.nib r m = 0) :
    compactedHigh r = true := by
  have h0 := h 0 (by norm_num)
  have h1 := h 1 (by norm_num)
  have h2 := h 2 (by norm_num)
  unfold compactedHigh
  simp only [Bool.and_eq_true, Bool.or_eq_true, beq_iff_eq, bne_iff_ne]
  refine ⟨⟨?_, ?_⟩, ?_⟩ <;> tauto

/-- A second right move fixes a board whose once-moved rows have no equal
adjacent nonzero cells. -/
theorem right_idem {b : Nat} (hb : b < 2 ^ 64)
    (h : ∀ k : Nat, k < 4 →
      noAdjEq (Game.rowAt (Game.move_right b) k) = true) :
    Game.move_right (Game.move_right b) = Game.move_right b := by
  apply rows_ext (move_right_lt (move_right_lt hb)) (move_right_lt hb)
  intro k hk
  rw [move_right_rowAt (Game.move_right b) k hk]
  have hkk := h k hk
  rw [move_right_rowAt b k hk] at hkk ⊢
  exact res_fixpoint (res_spec _).1
    (fun m hm hz => (res_spec (Game.rowAt b k)).2 m hm hz)
    (noAdjEq_props hkk)

/-- A second left move fixes a board whose once-moved rows have no equal
adjacent nonzero cells. -/
theorem left_idem {b : Nat} (hb : b < 2 ^ 64)
    (h : ∀ k : Nat, k < 4 →
      noAdjEq (Game.rowAt (Game.move_left b) k) = true) :
    Game.move_left (Game.move_left b) = Game.move_left b := by
  apply rows_ext (move_left_lt (move_left_lt hb)) (move_left_lt hb)
  intro k hk
  rw [move_left_rowAt (Game.move_left b) k hk]
  have hkk := h k hk
  rw [move_left_rowAt b k hk] at hkk ⊢
  have hs : Moves.res (Moves.rev (Game.rowAt b k)) < 2 ^ 16 := (res_spec _).1
  rw [rev_rev _ hs]
  obtain ⟨e0, e1, e2, e3⟩ := nib_rev hs
  have hrevadj := noAdjEq_props hkk
  have a0 : Moves.nib (Moves.res (Moves.rev (Game.rowAt b k))) 3 ≠ 0 →
      Moves.nib (Moves.res (Moves.rev (Game.rowAt b k))) 3 ≠
        Moves.nib (Moves.res (Moves.rev (Game.rowAt b k))) 2 := by
    have ha := hrevadj 0 (by norm_num)
    rw [e0, show (0 + 1 : Nat) = 1 by norm_num, e1] at ha
    exact ha
  have a1 : Moves.nib (Moves.res (Moves.rev (Game.rowAt b k))) 2 ≠ 0 →
      Moves.nib (Moves.res (Moves.rev (Game.rowAt b k))) 2 ≠
        Moves.nib (Moves.res (Moves.rev (Game.rowAt b k))) 1 := by
    have ha := hrevadj 1 (by norm_num)
    rw [e1, show (1 + 1 : Nat) = 2 by norm_num, e2] at ha
    exact ha
  have a2 : Moves.nib (Moves.res (Moves.rev (Game.rowAt b k))) 1 ≠ 0 →
      Moves.nib (Moves.res (Moves.rev (Game.rowAt b k))) 1 ≠
        Moves.nib (Moves.res (Moves.rev (Game.rowAt b k))) 0 := by
    have ha := hrevadj 2 (by norm_num)
    rw [e2, show (2 + 1 : Nat) = 3 by norm_num, e3] at ha
    exact ha
  have hadj : ∀ m : Nat, m < 3 →
      Moves.nib (Moves.res (Moves.rev (Game.rowAt b k))) m ≠ 0 →
      Moves.nib (Moves.res (Moves.rev (Game.rowAt b k))) m ≠
        Moves.nib (Moves.res (Moves.rev (Game.rowAt b k))) (m + 1) := by
    intro m hm
    interval_cases m
    · intro hnz heq
      exact a2 (by rw [← heq]; exact hnz) heq.symm
    · intro hnz heq
      exact a1 (by rw [← heq]; exact hnz) heq.symm
    · intro hnz heq
      exact a0 (by rw [← heq]; exact hnz) heq.symm
  exact congrArg Moves.rev (res_fixpoint hs
    (fun m hm hz => (res_spec _).2 m hm hz) hadj)

/-- Every row of a left-moved board is compacted toward its high nibbles. -/
theorem left_rows_compacted (b : Nat) : ∀ k : Nat, k < 4 →
    compactedHigh (Game.rowAt (Game.move_left b) k) = true := by
  intro k hk
  rw [move_left_rowAt b k hk]
  have hs : Moves.res (Moves.rev (Game.rowAt b k)) < 2 ^ 16 := (res_spec _).1
  obtain ⟨e0, e1, e2, e3⟩ := nib_rev hs
  apply compactedHigh_intro
  intro m hm
  interval_cases m
  · rw [show (0 + 1 : Nat) = 1 by norm_num, e0, e1]
    intro hz
    exact (res_spec _).2 2 (by norm_num) hz
  · rw [show (1 + 1 : Nat) = 2 by norm_num, e1, e2]
    intro hz
    exact (res_spec _).2 1 (by norm_num) hz
  · rw [show (2 + 1 : Nat) = 3 by norm_num, e2, e3]
    intro hz
    exact (res_spec _).2 0 (by norm_num) hz

/-! ### Scores, terminal detection, and spawning -/

/-- The stored row score equals the formula of the specification,
`Σ (c-1)·(2<<c)` over cells `c > 1` of the input row. -/
theorem scores_tab_eq_spec (r : Nat) : Moves.scores_tab r = specRowScore r := by
  unfold Moves.scores_tab specRowScore
  have e : ∀ c : Nat, (2 : Nat) <<< c = 2 ^ (c + 1) := by
    intro c
    rw [Nat.shiftLeft_eq, Nat.mul_comm, ← Nat.pow_succ]
  by_cases h0 : 1 < Moves.nib r 0 <;> by_cases h1 : 1 < Moves.nib r 1 <;>
    by_cases h2 : 1 < Moves.nib r 2 <;> by_cases h3 : 1 < Moves.nib r 3 <;>
    simp [List.foldl, h0, h1, h2, h3, e] <;>
    omega

/-- A board with a 2048 nibble anywhere is terminal. -/
theorem is_ended_of_11 {b i : Nat} (hi : i < 16)
    (h : (b >>> (4 * i)) &&& 0xF = 11) : Game.is_ended b = true := by
  unfold Game.is_ended
  rw [Bool.or_eq_true]
  left
  rw [List.any_eq_true]
  exact ⟨i, List.mem_range.mpr hi, by simp [h]⟩

/-- `Game::tile` can only ever return exponent 1: `gen_range(·, 0, 10)` lies
in `[0, 10)` and is compared against 10. -/
theorem tile_eq_one (h : Nat) : Game.tile h = 1 := by
  unfold Game.tile gen_range
  have hm : h % 10 < 10 := Nat.mod_lt _ (by norm_num)
  norm_num
  omega

/-- The spawn scan over the empty board shifts the tile to the chosen
nibble. -/
theorem spawnLoop_zero : ∀ idx fuel t : Nat, idx < fuel → t < 2 ^ 64 →
    Game.spawnLoop fuel 0 t idx = some ((t <<< (4 * idx)) % 2 ^ 64) := by
  intro idx
  induction idx with
  | zero =>
    intro fuel t hf ht
    cases fuel with
    | zero => exact absurd hf (by omega)
    | succ fuel =>
      simp only [Game.spawnLoop]
      rw [if_neg (by norm_num)]
      have ht2 : t < 18446744073709551616 := by
        calc t < 2 ^ 64 := ht
          _ = 18446744073709551616 := by norm_num
      simp
      omega
  | succ idx ih =>
    intro fuel t hf ht
    cases fuel with
    | zero => exact absurd hf (by omega)
    | succ fuel =>
      simp only [Game.spawnLoop]
      rw [if_neg (by norm_num), if_neg (by omega)]
      rw [show (0 : Nat) >>> 4 = 0 by norm_num,
        show (idx + 1) - 1 = idx by omega]
      rw [ih fuel ((t <<< 4) % 2 ^ 64) (by omega)
        (Nat.mod_lt _ (by norm_num))]
      congr 1
      rw [Nat.shiftLeft_eq, Nat.shiftLeft_eq, Nat.shiftLeft_eq,
        Nat.mod_mul_mod, Nat.mul_assoc, ← Nat.pow_add,
        show 4 + 4 * idx = 4 * (idx + 1) by omega]

/-- The first spawn of `Game::new` places the exponent-1 tile at nibble
`digest % 16` of the empty board. -/
theorem spawn_tile_zero (h : Nat) :
    Game.spawn_tile h 0 = some (2 ^ (4 * (h % 16))) := by
  have hce : Game.count_empty 0 = 16 := by decide
  have hgen : gen_range h 0 (Game.count_empty 0) = some (h % 16) := by
    rw [hce]
    unfold gen_range
    norm_num
  unfold Game.spawn_tile
  rw [hgen, tile_eq_one]
  show Game.spawnLoop 64 0 1 (h % 16) = some (2 ^ (4 * (h % 16)))
  rw [spawnLoop_zero (h % 16) 64 1 (by omega) (by norm_num)]
  congr 1
  have hm : h % 16 < 16 := Nat.mod_lt _ (by norm_num)
  rw [show (1 : Nat) <<< (4 * (h % 16)) = 2 ^ (4 * (h % 16)) by
    rw [Nat.shiftLeft_eq, Nat.one_mul]]
  apply Nat.mod_eq_of_lt
  calc (2 : Nat) ^ (4 * (h % 16)) ≤ 2 ^ 60 :=
      Nat.pow_le_pow_right (by norm_num) (by omega)
    _ < 2 ^ 64 := by norm_num

theorem count_empty_single : ∀ i, i < 16 →
    Game.count_empty (2 ^ (4 * i)) = 15 := by decide

theorem spawn_check_all : ∀ i, i < 16 → ∀ j, j < 15 →
    spawnCheck i j = true := by decide

/-- The second spawn of `Game::new` always lands on an empty nibble and
leaves exactly 14 empty nibbles. -/
theorem spawn_second_spec : ∀ i, i < 16 → ∀ j, j < 15 →
    ∃ t2, Game.spawnLoop 64 (2 ^ (4 * i)) 1 j = some t2 ∧
      Game.count_empty (2 ^ (4 * i) ||| t2) = 14 := by
  intro i hi j hj
  have hc := spawn_check_all i hi j hj
  unfold spawnCheck at hc
  revert hc
  cases hsp : Game.spawnLoop 64 (2 ^ (4 * i)) 1 j with
  | none => intro hc; exact absurd hc (by simp)
  | some t2 =>
    intro hc
    simp only [beq_iff_eq] at hc
    exact ⟨t2, rfl, hc⟩

/-! ### Claim theorems -/

/-- C1: the spawned tile exponent is claimed to be 2 with probability 0.1, so
some seed should yield exponent 2; in the code, `Game::tile` compares
`gen_range(seed, 0, 10)` — a value in `[0, 10)` — against 10, so it returns
exponent 1 for every digest the seed can hash to.  This theorem evaluates the
code at every input at once: the tile function is constantly 1. -/
theorem claim1_tile_always_exponent_one (h : Nat) : Game.tile h = 1 :=
  tile_eq_one h

/-- C2: on a board with zero empty nibbles, `Game::spawn_tile` is claimed to
reject the call explicitly instead of dividing by zero; in the code it calls
`gen_range(seed, 0, 0)`, whose `seed % 0` panics (modelled by `none`): the
failure is the modulo-by-zero, not an input-validation rejection. -/
theorem claim2_spawn_full_board_mod_zero :
    Game.count_empty 0x1111111111111111 = 0 ∧
    (∀ h : Nat, gen_range h 0 (Game.count_empty 0x1111111111111111) = none) ∧
    (∀ h : Nat, Game.spawn_tile h 0x1111111111111111 = none) := by
  have hce : Game.count_empty 0x1111111111111111 = 0 := by decide
  refine ⟨hce, ?_, ?_⟩
  · intro h
    rw [hce]
    rfl
  · intro h
    unfold Game.spawn_tile
    rw [hce]
    rfl

/-- C3: `is_ended` is true on every board containing nibble 11 (first
conjunct), but on the all-zero board — where the claim and the doc example of the function itself say false — the code returns true, because no move
changes the empty board (second conjunct exhibits the divergence). -/
theorem claim3_is_ended_eleven_and_zero_board :
    (∀ b i : Nat, i < 16 → (b >>> (4 * i)) &&& 0xF = 11 →
      Game.is_ended b = true) ∧
    Game.is_ended 0 = true := by
  constructor
  · intro b i hi h
    exact is_ended_of_11 hi h
  · decide

theorem claim3_witness :
    Game.is_ended 0x0B00 = true ∧ Game.is_ended 0 = true :=
  ⟨claim3_is_ended_eleven_and_zero_board.1 0x0B00 2 (by norm_num) (by decide),
    claim3_is_ended_eleven_and_zero_board.2⟩

/-- C4 counterexample: a second application of the same move is not always a
no-op; the all-ones row merges twice: `0x1111` moved right gives `0x0022`,
and moving right again gives `0x0003`. -/
theorem claim4_counterexample :
    ¬ moveDir Direction.Right (moveDir Direction.Right 0x1111) =
      moveDir Direction.Right 0x1111 := by decide

/-- C4 (amended): a second application of the same move is a no-op whenever
the once-moved board contains, in every line along the move direction, no two
adjacent equal nonzero cells; in general a second application can merge
further (see the counterexample `0x1111`). -/
theorem claim4_amended_idempotent (d : Direction) (b : Nat) (hb : b < 2 ^ 64)
    (h : ∀ k : Nat, k < 4 →
      noAdjEq (Game.rowAt (oriented d (moveDir d b)) k) = true) :
    moveDir d (moveDir d b) = moveDir d b := by
  cases d with
  | Right => exact right_idem hb h
  | Left => exact left_idem hb h
  | Down =>
    have h1 : Game.move_down b =
        Game.transpose (Game.move_right (Game.transpose b)) := move_down_conj hb
    have hmb : Game.move_down b < 2 ^ 64 := move_down_lt hb
    have h2 : Game.move_down (Game.move_down b) =
        Game.transpose (Game.move_right (Game.transpose (Game.move_down b))) :=
      move_down_conj hmb
    have h3 : Game.transpose (Game.move_down b) =
        Game.move_right (Game.transpose b) := by
      rw [h1, transpose_transpose _ (move_right_lt (transpose_lt_two_pow b))]
    show Game.move_down (Game.move_down b) = Game.move_down b
    rw [h2, h3, h1]
    congr 1
    apply right_idem (transpose_lt_two_pow b)
    intro k hk
    have hh : noAdjEq (Game.rowAt (Game.transpose (Game.move_down b)) k) = true :=
      h k hk
    rw [h3] at hh
    exact hh
  | Up =>
    have h1 : Game.move_up b =
        Game.transpose (Game.move_left (Game.transpose b)) := move_up_conj hb
    have hmb : Game.move_up b < 2 ^ 64 := move_up_lt hb
    have h2 : Game.move_up (Game.move_up b) =
        Game.transpose (Game.move_left (Game.transpose (Game.move_up b))) :=
      move_up_conj hmb
    have h3 : Game.transpose (Game.move_up b) =
        Game.move_left (Game.transpose b) := by
      rw [h1, transpose_transpose _ (move_left_lt (transpose_lt_two_pow b))]
    show Game.move_up (Game.move_up b) = Game.move_up b
    rw [h2, h3, h1]
    congr 1
    apply left_idem (transpose_lt_two_pow b)
    intro k hk
    have hh : noAdjEq (Game.rowAt (Game.transpose (Game.move_up b)) k) = true :=
      h k hk
    rw [h3] at hh
    exact hh

theorem claim4_witness :
    moveDir Direction.Right (moveDir Direction.Right 0x21) =
      moveDir Direction.Right 0x21 :=
  claim4_amended_idempotent Direction.Right 0x21 (by norm_num) (by decide)

/-- C5: the transpose is its own inverse on every 64-bit board. -/
theorem claim5_transpose_involution (b : Nat) (hb : b < 2 ^ 64) :
    Game.transpose (Game.transpose b) = b :=
  transpose_transpose b hb

theorem claim5_witness :
    Game.transpose (Game.transpose 0xFEDCBA9876543210) = 0xFEDCBA9876543210 :=
  claim5_transpose_involution 0xFEDCBA9876543210 (by norm_num)

/-- C6: because the up/down tables are stored already column-spread, the
up/down moves need no final transpose-back: they agree with conjugating the
right/left moves by the transpose. -/
theorem claim6_updown_conjugate (b : Nat) (hb : b < 2 ^ 64) :
    Game.move_down b = Game.transpose (Game.move_right (Game.transpose b)) ∧
    Game.move_up b = Game.transpose (Game.move_left (Game.transpose b)) :=
  ⟨move_down_conj hb, move_up_conj hb⟩

theorem claim6_witness :
    Game.move_down 0x0011000000000011 =
      Game.transpose (Game.move_right (Game.transpose 0x0011000000000011)) ∧
    Game.move_up 0x0011000000000011 =
      Game.transpose (Game.move_left (Game.transpose 0x0011000000000011)) :=
  claim6_updown_conjugate 0x0011000000000011 (by norm_num)

/-- C7: each scores-table entry is `Σ (c-1)·(2<<c)` over the cells `c > 1`
of the input row (not of a post-merge row), and the board score is the sum of
the four row-slice lookups. -/
theorem claim7_score_formula :
    (∀ r : Nat, r < 2 ^ 16 → Moves.scores_tab r = specRowScore r) ∧
    (∀ b : Nat, b < 2 ^ 64 → Game.score b =
      Moves.scores_tab (Game.rowAt b 0) + Moves.scores_tab (Game.rowAt b 1) +
      Moves.scores_tab (Game.rowAt b 2) + Moves.scores_tab (Game.rowAt b 3)) := by
  constructor
  · intro r _
    exact scores_tab_eq_spec r
  · intro b _
    rfl

theorem claim7_witness :
    Moves.scores_tab 0x0123 = specRowScore 0x0123 ∧
    Game.score 0x0011000000000011 =
      Moves.scores_tab (Game.rowAt 0x0011000000000011 0) +
      Moves.scores_tab (Game.rowAt 0x0011000000000011 1) +
      Moves.scores_tab (Game.rowAt 0x0011000000000011 2) +
      Moves.scores_tab (Game.rowAt 0x0011000000000011 3) :=
  ⟨claim7_score_formula.1 0x0123 (by norm_num),
    claim7_score_formula.2 0x0011000000000011 (by norm_num)⟩

/-- C8: a `MakeMove` against a game whose ended flag is set leaves the stored
record unchanged and produces no message: the Ended state is absorbing. -/
theorem claim8_ended_absorbing (digest : Nat) (st : GameState) (d : Direction)
    (h : st.is_ended = true) :
    makeMove digest st d = some (st, none) := by
  unfold makeMove
  rw [if_pos h]

theorem claim8_witness :
    makeMove 0 ⟨1, 0x2211, 0, true⟩ Direction.Left =
      some (⟨1, 0x2211, 0, true⟩, none) :=
  claim8_ended_absorbing 0 ⟨1, 0x2211, 0, true⟩ Direction.Left rfl

/-- C9: after a left move every row, and after an up move every column (a row
of the transposed board), is fully compacted toward the move direction: no
empty cell precedes a nonzero cell. -/
theorem claim9_moved_lines_compacted (b : Nat) (hb : b < 2 ^ 64) :
    (∀ k : Nat, k < 4 →
      compactedHigh (Game.rowAt (Game.move_left b) k) = true) ∧
    (∀ k : Nat, k < 4 →
      compactedHigh (Game.rowAt (Game.transpose (Game.move_up b)) k) = true) := by
  constructor
  · exact left_rows_compacted b
  · intro k hk
    have h3 : Game.transpose (Game.move_up b) =
        Game.move_left (Game.transpose b) := by
      rw [move_up_conj hb,
        transpose_transpose _ (move_left_lt (transpose_lt_two_pow b))]
    rw [h3]
    exact left_rows_compacted (Game.transpose b) k hk

theorem claim9_witness :
    compactedHigh (Game.rowAt (Game.move_left 0x00120021A0B000C7) 0) = true ∧
    compactedHigh
      (Game.rowAt (Game.transpose (Game.move_up 0x00120021A0B000C7)) 0) = true :=
  ⟨(claim9_moved_lines_compacted 0x00120021A0B000C7 (by norm_num)).1 0
      (by norm_num),
    (claim9_moved_lines_compacted 0x00120021A0B000C7 (by norm_num)).2 0
      (by norm_num)⟩

/-- C10: for every seed below 65535 (where the `seed + 1` of the second spawn
does not overflow `u16`), `Game::new` succeeds and its board has exactly two
nonzero nibbles, i.e. 14 empty ones — whatever digests the external string
hasher produces. -/
theorem claim10_new_board_two_tiles (hash : String → Nat) (seed : Nat)
    (hseed : seed < 65535) :
    ∃ g : Game, Game.new hash seed = some g ∧
      Game.count_empty g.board = 14 := by
  obtain ⟨t2, ht2, hcount⟩ := spawn_second_spec
    (hash (toString seed) % 16) (Nat.mod_lt _ (by norm_num))
    (hash (toString ((seed + 1) % 65536)) % 15) (Nat.mod_lt _ (by norm_num))
  have hsp2 : Game.spawn_tile (hash (toString ((seed + 1) % 65536)))
      (2 ^ (4 * (hash (toString seed) % 16))) = some t2 := by
    unfold Game.spawn_tile
    rw [count_empty_single _ (Nat.mod_lt _ (by norm_num))]
    rw [show gen_range (hash (toString ((seed + 1) % 65536))) 0 15 =
      some (hash (toString ((seed + 1) % 65536)) % 15) by
        unfold gen_range
        norm_num]
    rw [tile_eq_one]
    exact ht2
  refine ⟨⟨2 ^ (4 * (hash (toString seed) % 16)) ||| t2, seed⟩, ?_, hcount⟩
  unfold Game.new
  rw [spawn_tile_zero]
  simp only [Nat.zero_or]
  rw [hsp2]

theorem claim10_witness :
    ∃ g : Game, Game.new (fun _ => 0) 0 = some g ∧
      Game.count_empty g.board = 14 :=
  claim10_new_board_two_tiles (fun _ => 0) 0 (by norm_num)
